import Mathlib

/-!
Verification of the RecOrder store core against its specification.

The development shallowly embeds the three store variants of the repository:

* RecOrder.Simple — the localStorage-backed store of
  src/composables/useHotdogStore.ts (pure in-memory state, string topping
  names).
* RecOrder.Sb — the Supabase-backed store of
  src/composables/useHotdogStoreSupabase.ts.  The remote database is made
  explicit as a record of tables; every backend call that can fail takes an
  explicit success flag (the failure oracle), since the network outcome is
  environment input.  A failed insert/update/delete mutates nothing; a
  successful one applies its row change.  The visible client state (entries,
  toppingOptions, loading, error) is threaded explicitly.
* RecOrder.Bc — the Broadcast-mode store of
  src/composables/useHotdogStoreBroadcast.ts (same database model; its
  migration and addCustomTopping logic differ from the Sb variant).

Timestamps are kept as the strings the code stores; the JavaScript Date
conversions (getTime, getHours) are environment functions and enter as
explicit parameters.  JSON parsing of the legacy localStorage blobs is
abstracted: the storage slots hold the parsed records directly.  JavaScript
stable Array.sort with a consistent comparator is modelled by Mathlib's
List.insertionSort with the reflexive comparator relation (a kept before b
iff the comparator puts a at-or-before b), which is stable in the same way.
-/

namespace RecOrder

/-- Models the JavaScript idiom (x or null) applied to an optional string:
an absent value stays absent, and the empty string (falsy in JavaScript)
also collapses to null. -/
def jsOrNull : Option String → Option String
  | some s => if s = "" then none else some s
  | none => none

/-! ## The simple localStorage-backed store (useHotdogStore.ts) -/

namespace Simple

/-- Entry record of the simple store: toppings are free-text names.
Mirrors the HotdogEntry type of useHotdogStore.ts. -/
structure HotdogEntry where
  id : String
  createdAt : String
  toppings : List String
deriving DecidableEq

/-- Module state of the simple store: the entries ref and the
toppingOptions ref. -/
structure StoreState where
  entries : List HotdogEntry
  toppingOptions : List String
deriving DecidableEq

/-- Comparator relation of the sortedEntries computed view:
createdAt ascending with id as tie-break (localeCompare modelled as the
string order).  The relation holds when a sorts at-or-before b. -/
def displayLe (a b : HotdogEntry) : Prop :=
  a.createdAt < b.createdAt ∨ (a.createdAt = b.createdAt ∧ a.id ≤ b.id)

instance : DecidableRel displayLe := fun a b => by
  unfold displayLe; infer_instance

/-- Computed view sortedEntries of useHotdogStore.ts. -/
def sortedEntries (s : StoreState) : List HotdogEntry :=
  List.insertionSort displayLe s.entries

/-- Function addEntry of useHotdogStore.ts: a no-op on an empty topping
list, otherwise pushes a fresh entry.  The generated id and the current
clock reading are environment inputs. -/
def addEntry (s : StoreState) (newId now : String) (toppings : List String) :
    StoreState :=
  if toppings.length = 0 then s
  else
    { s with
      entries := s.entries ++ [{ id := newId, createdAt := now, toppings := toppings }] }

/-- Function deleteEntry of useHotdogStore.ts. -/
def deleteEntry (s : StoreState) (id : String) : StoreState :=
  { s with entries := s.entries.filter (fun e => e.id != id) }

/-- Computed totalHotdogs of useHotdogStore.ts. -/
def totalHotdogs (s : StoreState) : Nat :=
  s.entries.length

/-- Function ensureTopping of useHotdogStore.ts: trims the name, ignores an
empty result, adds the name to the catalog only when not already present
(case-sensitive exact membership), re-sorting the catalog. -/
def ensureTopping (s : StoreState) (name : String) : StoreState :=
  let trimmed := name.trim
  if trimmed = "" then s
  else if trimmed ∈ s.toppingOptions then s
  else
    { s with
      toppingOptions :=
        List.insertionSort (fun a b : String => a ≤ b) (s.toppingOptions ++ [trimmed]) }

end Simple

/-! ## The shared database model of the two Supabase-backed variants -/

/-- Row of the topping_options table (src/lib/supabase.ts). -/
structure ToppingOption where
  id : String
  name : String
  emoji : String
  display_order : Int
  created_at : String
deriving DecidableEq

/-- Row of the hotdog_entries table.  Row ids are generated by the backend;
the model draws them from a counter held in the database state. -/
structure DbEntry where
  id : Nat
  created_at : String
  completed : Bool
  completed_at : Option String
deriving DecidableEq

/-- Row of the entry_toppings join table. -/
structure EntryTopping where
  entry_id : Nat
  topping_id : String
deriving DecidableEq

/-- The remote database: the three tables plus the fresh-id counter. -/
structure Db where
  hotdog_entries : List DbEntry
  entry_toppings : List EntryTopping
  topping_options : List ToppingOption
  nextId : Nat
deriving DecidableEq

/-- Client-side entry with its joined toppings
(HotdogEntryWithToppings of src/lib/supabase.ts). -/
structure HotdogEntryWithToppings where
  id : Nat
  created_at : String
  completed : Bool
  completed_at : Option String
  toppings : List ToppingOption
deriving DecidableEq

/-- Toppings joined to one entry, as fetchEntries computes them: the
entry_toppings rows of the entry resolved against topping_options (rows
whose topping vanished are dropped, as the filter(Boolean) does), sorted by
display_order ascending. -/
def toppingsOf (db : Db) (eid : Nat) : List ToppingOption :=
  List.insertionSort (fun a b => a.display_order ≤ b.display_order)
    ((db.entry_toppings.filter (fun et => et.entry_id == eid)).filterMap
      (fun et => db.topping_options.find? (fun o => o.id == et.topping_id)))

/-- Entries as the backend returns them ordered by created_at ascending
(the order-by contract of the select; timestamp order modelled as string
order on the stored timestamps). -/
def dbSortedByCreated (db : Db) : List DbEntry :=
  List.insertionSort (fun a b => a.created_at ≤ b.created_at) db.hotdog_entries

/-- Join computed by fetchEntries: every entry row with its resolved
topping list. -/
def joinEntries (db : Db) : List HotdogEntryWithToppings :=
  (dbSortedByCreated db).map (fun e =>
    { id := e.id, created_at := e.created_at, completed := e.completed,
      completed_at := e.completed_at, toppings := toppingsOf db e.id })

/-! ## The Supabase variant (useHotdogStoreSupabase.ts) -/

namespace Sb

/-- Parsed record of the v2 legacy localStorage blob, as
migrateFromLocalStorage reads it (an absent completed field parses to
false through the or-false in the source). -/
structure LocalEntry where
  createdAt : String
  completed : Bool
  completedAt : Option String
  toppings : List String
deriving DecidableEq

/-- Parsed record of the v1 legacy localStorage blob (no completion
fields). -/
structure V1Entry where
  id : String
  createdAt : String
  toppings : List String
deriving DecidableEq

/-- State visible to the Supabase-variant store: the remote database, the
client refs (toppingOptions, entries, loading, error) and the two legacy
localStorage slots, holding parsed blobs. -/
structure SbState where
  db : Db
  toppingOptions : List ToppingOption
  entries : List HotdogEntryWithToppings
  loading : Bool
  error : Option String
  storageV2 : Option (List LocalEntry)
  storageV1 : Option (List V1Entry)
deriving DecidableEq

/-- Function fetchEntries of useHotdogStoreSupabase.ts.  The try block only
reads; entries is assigned once after every read succeeded, and the catch
records the error leaving entries untouched.  The ok flag states whether
all the reads succeeded.  The state shown is the net state after the
finally clause (the transient loading=true is unobservable here). -/
def fetchEntries (ok : Bool) (st : SbState) : SbState :=
  if ok then
    { st with loading := false, error := none, entries := joinEntries st.db }
  else
    { st with loading := false, error := some "エントリー取得エラー" }

/-- Function addEntry of useHotdogStoreSupabase.ts: inserts the entry row
(unconditionally, with completed=false and completed_at=null), then the
entry_toppings rows when the topping list is non-empty, then re-fetches.
A failure of either insert is caught: the error ref is set and nothing
further runs, but a row already inserted stays inserted. -/
def addEntry (toppingIds : List String) (now : String)
    (entryInsertOk toppingsInsertOk fetchOk : Bool) (st : SbState) : SbState :=
  if entryInsertOk = false then
    { st with loading := false, error := some "エントリー追加エラー" }
  else
    let newEntry : DbEntry :=
      { id := st.db.nextId, created_at := now, completed := false, completed_at := none }
    let db1 := { st.db with
      hotdog_entries := st.db.hotdog_entries ++ [newEntry], nextId := st.db.nextId + 1 }
    if 0 < toppingIds.length ∧ toppingsInsertOk = false then
      { st with db := db1, loading := false, error := some "エントリー追加エラー" }
    else
      let db2 :=
        if 0 < toppingIds.length then
          { db1 with entry_toppings := db1.entry_toppings ++
              toppingIds.map (fun tid => { entry_id := newEntry.id, topping_id := tid }) }
        else db1
      let st1 := fetchEntries fetchOk { st with db := db2 }
      { st1 with loading := false }

/-- Function deleteEntry of useHotdogStoreSupabase.ts (the backend cascades
the entry_toppings rows; they no longer join to anything either way). -/
def deleteEntry (id : Nat) (deleteOk fetchOk : Bool) (st : SbState) : SbState :=
  if deleteOk = false then
    { st with loading := false, error := some "エントリー削除エラー" }
  else
    let db1 := { st.db with
      hotdog_entries := st.db.hotdog_entries.filter (fun e => e.id != id) }
    let st1 := fetchEntries fetchOk { st with db := db1 }
    { st1 with loading := false }

/-- Function completeEntry of useHotdogStoreSupabase.ts: updates the row
with the given id to completed=true with completed_at=now, then
re-fetches. -/
def completeEntry (id : Nat) (now : String) (updateOk fetchOk : Bool)
    (st : SbState) : SbState :=
  if updateOk = false then
    { st with loading := false, error := some "エントリー完了エラー" }
  else
    let db1 := { st.db with
      hotdog_entries := st.db.hotdog_entries.map (fun e =>
        if e.id = id then { e with completed := true, completed_at := some now } else e) }
    let st1 := fetchEntries fetchOk { st with db := db1 }
    { st1 with loading := false }

/-- Function uncompleteEntry of useHotdogStoreSupabase.ts: updates the row
with the given id to completed=false with completed_at=null, then
re-fetches. -/
def uncompleteEntry (id : Nat) (updateOk fetchOk : Bool) (st : SbState) : SbState :=
  if updateOk = false then
    { st with loading := false, error := some "エントリー未完了化エラー" }
  else
    let db1 := { st.db with
      hotdog_entries := st.db.hotdog_entries.map (fun e =>
        if e.id = id then { e with completed := false, completed_at := none } else e) }
    let st1 := fetchEntries fetchOk { st with db := db1 }
    { st1 with loading := false }

/-- Greatest display_order of the catalog, as the order-by-descending
limit-1 single query returns it (none on an empty table, which the source
recognises by the PGRST116 code and treats as no rows). -/
def maxDisplayOrder : List ToppingOption → Option Int
  | [] => none
  | o :: rest => some ((rest.map (fun t => t.display_order)).foldl max o.display_order)

/-- Function initializeStore of useHotdogStoreSupabase.ts, named initStore
here: reloads the catalog ordered by display_order ascending; on failure
records the error leaving the catalog untouched. -/
def initStore (ok : Bool) (st : SbState) : SbState :=
  if ok then
    { st with
      loading := false
      error := none
      toppingOptions :=
        List.insertionSort (fun a b => a.display_order ≤ b.display_order)
          st.db.topping_options }
  else
    { st with loading := false, error := some "初期化エラー" }

/-- Function addCustomTopping of useHotdogStoreSupabase.ts: queries the
maximum display_order (a genuine query failure aborts; an empty table is
the tolerated PGRST116 case), inserts the new topping with that maximum
plus one (or 1 on an empty catalog), then reloads the catalog. -/
def addCustomTopping (name emoji newId createdNow : String)
    (maxQueryOk insertOk initOk : Bool) (st : SbState) : SbState :=
  if maxQueryOk = false then
    { st with loading := false, error := some "トッピング追加エラー" }
  else
    let nextOrder : Int :=
      match maxDisplayOrder st.db.topping_options with
      | some m => m + 1
      | none => 1
    if insertOk = false then
      { st with loading := false, error := some "トッピング追加エラー" }
    else
      let db1 := { st.db with topping_options := st.db.topping_options ++
        [{ id := newId, name := name, emoji := emoji, display_order := nextOrder,
           created_at := createdNow }] }
      let st1 := initStore initOk { st with db := db1 }
      { st1 with loading := false }

/-- Computed totalHotdogs of useHotdogStoreSupabase.ts. -/
def totalHotdogs (st : SbState) : Nat :=
  st.entries.length

/-- Sentinel bucket label used by toppingFrequency for entries with zero
toppings. -/
def sentinelKey : String := "🌭 ノーマル"

/-- Display key of a topping as toppingFrequency builds it: the emoji, a
space, and the name. -/
def keyOf (t : ToppingOption) : String :=
  t.emoji ++ " " ++ t.name

/-- Models one frequency-object update of toppingFrequency: an existing key
is incremented in place, a new key is appended at the end, matching the
insertion-order semantics of JavaScript string-keyed objects. -/
def bump : List (String × Nat) → String → List (String × Nat)
  | [], k => [(k, 1)]
  | p :: rest, k => if p.1 = k then (p.1, p.2 + 1) :: rest else p :: bump rest k

/-- Frequency object of toppingFrequency before sorting: each entry with
zero toppings bumps the sentinel bucket, every other entry bumps the key of
each of its toppings. -/
def freqMap (es : List HotdogEntryWithToppings) : List (String × Nat) :=
  es.foldl
    (fun m e =>
      if e.toppings.length = 0 then bump m sentinelKey
      else e.toppings.foldl (fun m t => bump m (keyOf t)) m)
    []

/-- Comparator relation of the final sort of toppingFrequency: count
descending (a sorts at-or-before b when the count of b is at most the count
of a), ties keeping insertion order through sort stability. -/
def countDescLe (a b : String × Nat) : Prop :=
  b.2 ≤ a.2

instance : DecidableRel countDescLe := fun a b => by
  unfold countDescLe; infer_instance

instance : IsTotal (String × Nat) countDescLe :=
  ⟨fun a b => le_total b.2 a.2⟩

instance : IsTrans (String × Nat) countDescLe :=
  ⟨fun _ _ _ hab hbc => le_trans hbc hab⟩

/-- Computed toppingFrequency of useHotdogStoreSupabase.ts: the frequency
object listed as (name, count) pairs sorted by count descending. -/
def toppingFrequency (es : List HotdogEntryWithToppings) : List (String × Nat) :=
  List.insertionSort countDescLe (freqMap es)

/-- Increment of one histogram slot, as the JavaScript increment of an
array cell behaves on the fixed 24-cell array: an index beyond the array
leaves the 24 cells untouched. -/
def bumpAt : List Nat → Nat → List Nat
  | [], _ => []
  | c :: rest, 0 => (c + 1) :: rest
  | c :: rest, h + 1 => c :: bumpAt rest h

/-- Computed hourlySales of useHotdogStoreSupabase.ts: a 24-slot histogram,
each entry incrementing the slot of the local hour of its created_at.  The
local-time hour extraction getHours is an environment function and enters
as the parameter hourOf. -/
def hourlySales (hourOf : String → Nat) (es : List HotdogEntryWithToppings) :
    List Nat :=
  es.foldl (fun sales e => bumpAt sales (hourOf e.created_at)) (List.replicate 24 0)

/-- Comparator relation of the sortedEntries computed view of
useHotdogStoreSupabase.ts: entries with different completion flags put the
uncompleted one first; entries with equal flags compare by the parsed
created_at time (the Date getTime conversion enters as the parameter
timeOf).  Holds when a sorts at-or-before b; ties keep fetched order
through sort stability. -/
def displayLe (timeOf : String → Int) (a b : HotdogEntryWithToppings) : Prop :=
  (a.completed = b.completed ∧ timeOf a.created_at ≤ timeOf b.created_at) ∨
    (¬a.completed = b.completed ∧ a.completed = false)

instance (timeOf : String → Int) : DecidableRel (displayLe timeOf) := fun a b => by
  unfold displayLe; infer_instance

/-- Computed sortedEntries of useHotdogStoreSupabase.ts. -/
def sortedEntries (timeOf : String → Int) (es : List HotdogEntryWithToppings) :
    List HotdogEntryWithToppings :=
  List.insertionSort (displayLe timeOf) es

/-- Topping-name resolution of migrateFromLocalStorage: each free-text name
is looked up in the catalog by exact name match, unmatched names are
dropped. -/
def resolveToppingIds (opts : List ToppingOption) (names : List String) :
    List String :=
  names.filterMap (fun n => (opts.find? (fun o => o.name == n)).map (fun o => o.id))

/-- Mapping applied to v1 legacy records by migrateFromLocalStorage of the
Supabase variant: completion forced on with the completion timestamp set to
the creation timestamp. -/
def v1ToLocal (e : V1Entry) : LocalEntry :=
  { createdAt := e.createdAt, completed := true, completedAt := some e.createdAt,
    toppings := e.toppings }

/-- Record loop of migrateFromLocalStorage of the Supabase variant.  For
each record it inserts the entry row and then, when some topping resolved,
the entry_toppings rows; a failed insert throws, aborting the whole loop
with the rows inserted so far kept and the error returned.  The failure
oracles give the outcome of the inserts of the record at each position. -/
def migrateLoop (opts : List ToppingOption) (entryInsertOk toppingsInsertOk : Nat → Bool)
    (i : Nat) (db : Db) : List LocalEntry → Db × Option String
  | [] => (db, none)
  | r :: rest =>
    if entryInsertOk i = false then (db, some "マイグレーションエラー")
    else
      let toppingIds := resolveToppingIds opts r.toppings
      let newEntry : DbEntry :=
        { id := db.nextId, created_at := r.createdAt, completed := r.completed,
          completed_at := jsOrNull r.completedAt }
      let db1 := { db with
        hotdog_entries := db.hotdog_entries ++ [newEntry], nextId := db.nextId + 1 }
      if 0 < toppingIds.length ∧ toppingsInsertOk i = false then
        (db1, some "マイグレーションエラー")
      else
        let db2 :=
          if 0 < toppingIds.length then
            { db1 with entry_toppings := db1.entry_toppings ++
                toppingIds.map (fun tid => { entry_id := newEntry.id, topping_id := tid }) }
          else db1
        migrateLoop opts entryInsertOk toppingsInsertOk (i + 1) db2 rest

/-- Function migrateFromLocalStorage of useHotdogStoreSupabase.ts.  With no
legacy blob it returns at once.  Otherwise the v2 blob is preferred, a v1
blob being mapped through v1ToLocal; the records run through migrateLoop;
only a fully successful pass deletes both storage keys and re-fetches,
while an aborted pass records the error and leaves the storage keys in
place. -/
def migrateFromLocalStorage (entryInsertOk toppingsInsertOk : Nat → Bool)
    (fetchOk : Bool) (st : SbState) : SbState :=
  match st.storageV2, st.storageV1 with
  | none, none => st
  | _, _ =>
    let localEntries : List LocalEntry :=
      match st.storageV2 with
      | some l => l
      | none => (st.storageV1.getD []).map v1ToLocal
    match migrateLoop st.toppingOptions entryInsertOk toppingsInsertOk 0 st.db localEntries with
    | (db1, some msg) => { st with db := db1, loading := false, error := some msg }
    | (db1, none) =>
      let st1 := fetchEntries fetchOk
        { st with db := db1, storageV2 := none, storageV1 := none }
      { st1 with loading := false }

end Sb

/-! ## The Broadcast variant (useHotdogStoreBroadcast.ts) -/

namespace Bc

/-- Parsed v2 legacy blob as the Broadcast variant reads it: an object
whose entries field holds the records (the record shape matches the one the
Supabase variant parses). -/
structure BcV2Blob where
  entries : List Sb.LocalEntry
deriving DecidableEq

/-- State visible to the Broadcast-variant store. -/
structure BcState where
  db : Db
  toppingOptions : List ToppingOption
  entries : List HotdogEntryWithToppings
  loading : Bool
  error : Option String
  storageV2 : Option BcV2Blob
  storageV1 : Option (List Sb.V1Entry)
deriving DecidableEq

/-- Greatest display_order of the local catalog as Math.max over the mapped
list computes it on a non-empty catalog. -/
def jsMathMaxOrder : List ToppingOption → Int
  | [] => 0
  | t :: rest => (rest.map (fun x => x.display_order)).foldl max t.display_order

/-- Function addCustomTopping of useHotdogStoreBroadcast.ts: computes the
next display_order from the local catalog (maximum plus one, or 0 on an
empty catalog), inserts the topping, and pushes it onto the local catalog.
No existence check is made.  A failed insert records the error and pushes
nothing. -/
def addCustomTopping (name emoji newId now : String) (insertOk : Bool)
    (st : BcState) : BcState :=
  let displayOrder : Int :=
    if 0 < st.toppingOptions.length then jsMathMaxOrder st.toppingOptions + 1 else 0
  if insertOk = false then
    { st with loading := false, error := some "トッピング追加エラー" }
  else
    let newT : ToppingOption :=
      { id := newId, name := name, emoji := emoji, display_order := displayOrder,
        created_at := now }
    { st with
      db := { st.db with topping_options := st.db.topping_options ++ [newT] }
      toppingOptions := st.toppingOptions ++ [newT]
      loading := false
      error := none }

/-- Computed sortedEntries of useHotdogStoreBroadcast.ts: the completed
entries sorted by created_at time ascending, followed by the pending ones
sorted the same way. -/
def sortedEntries (timeOf : String → Int) (es : List HotdogEntryWithToppings) :
    List HotdogEntryWithToppings :=
  List.insertionSort (fun a b => timeOf a.created_at ≤ timeOf b.created_at)
      (es.filter (fun e => e.completed)) ++
    List.insertionSort (fun a b => timeOf a.created_at ≤ timeOf b.created_at)
      (es.filter (fun e => !e.completed))

/-- Topping loop shared by the two migration record loops of
useHotdogStoreBroadcast.ts: each topping name matched in the catalog is
inserted as an entry_toppings row; the result of these inserts is ignored
by the source, so a failed insert (oracle false at that topping position)
just leaves the row absent. -/
def migrateToppings (opts : List ToppingOption) (ok : Nat → Bool) (eid : Nat)
    (j : Nat) (db : Db) : List String → Db
  | [] => db
  | n :: rest =>
    let db1 :=
      match opts.find? (fun o => o.name == n) with
      | some t =>
        if ok j then
          { db with entry_toppings := db.entry_toppings ++ [{ entry_id := eid, topping_id := t.id }] }
        else db
      | none => db
    migrateToppings opts ok eid (j + 1) db1 rest

/-- Function migrateV2Data of useHotdogStoreBroadcast.ts: for each v2
record, insert the entry row (keeping its completion fields through the
or-false and or-null defaults); a failed insert is logged and the loop
continues with the next record; then the matched toppings are inserted. -/
def migrateV2Data (opts : List ToppingOption) (entryInsertOk : Nat → Bool)
    (toppingInsertOk : Nat → Nat → Bool) (i : Nat) (db : Db) :
    List Sb.LocalEntry → Db
  | [] => db
  | r :: rest =>
    if entryInsertOk i = false then
      migrateV2Data opts entryInsertOk toppingInsertOk (i + 1) db rest
    else
      let newEntry : DbEntry :=
        { id := db.nextId, created_at := r.createdAt, completed := r.completed,
          completed_at := jsOrNull r.completedAt }
      let db1 := { db with
        hotdog_entries := db.hotdog_entries ++ [newEntry], nextId := db.nextId + 1 }
      let db2 := migrateToppings opts (toppingInsertOk i) newEntry.id 0 db1 r.toppings
      migrateV2Data opts entryInsertOk toppingInsertOk (i + 1) db2 rest

/-- Function migrateV1Data of useHotdogStoreBroadcast.ts: like the v2 loop,
but every inserted entry gets completed=false with completed_at=null, the
v1 schema having no completion flag. -/
def migrateV1Data (opts : List ToppingOption) (entryInsertOk : Nat → Bool)
    (toppingInsertOk : Nat → Nat → Bool) (i : Nat) (db : Db) :
    List Sb.V1Entry → Db
  | [] => db
  | r :: rest =>
    if entryInsertOk i = false then
      migrateV1Data opts entryInsertOk toppingInsertOk (i + 1) db rest
    else
      let newEntry : DbEntry :=
        { id := db.nextId, created_at := r.createdAt, completed := false,
          completed_at := none }
      let db1 := { db with
        hotdog_entries := db.hotdog_entries ++ [newEntry], nextId := db.nextId + 1 }
      let db2 := migrateToppings opts (toppingInsertOk i) newEntry.id 0 db1 r.toppings
      migrateV1Data opts entryInsertOk toppingInsertOk (i + 1) db2 rest

/-- Function migrateFromLocalStorage of useHotdogStoreBroadcast.ts: a v2
blob, when present, is migrated and only the v2 key removed, the function
then returning; otherwise a v1 blob, when present, is migrated and the v1
key removed.  Per-record failures never surface (the loops swallow them),
so the key of the migrated blob is always removed. -/
def migrateFromLocalStorage (entryInsertOk : Nat → Bool)
    (toppingInsertOk : Nat → Nat → Bool) (st : BcState) : BcState :=
  match st.storageV2 with
  | some blob =>
    { st with
      db := migrateV2Data st.toppingOptions entryInsertOk toppingInsertOk 0 st.db blob.entries
      storageV2 := none }
  | none =>
    match st.storageV1 with
    | some v1 =>
      { st with
        db := migrateV1Data st.toppingOptions entryInsertOk toppingInsertOk 0 st.db v1
        storageV1 := none }
    | none => st

end Bc

/-! ## Shared invariants and concrete demonstration inputs -/

/-- Data-model invariant of the spec: the completion timestamp of a row is
present exactly when its completed flag is set. -/
def dbInv (db : Db) : Prop :=
  ∀ e ∈ db.hotdog_entries, e.completed_at.isSome = e.completed

instance (db : Db) : Decidable (dbInv db) := by
  unfold dbInv; infer_instance

/-- Shape of an entry row disregarding the generated id. -/
def entryShape (e : DbEntry) : String × Bool × Option String :=
  (e.created_at, e.completed, e.completed_at)

/-- Records of a list whose position passes the oracle, used to describe
which legacy records a best-effort migration loop manages to insert. -/
def survivors (ok : Nat → Bool) (i : Nat) : List α → List α
  | [] => []
  | r :: rest =>
    if ok i then r :: survivors ok (i + 1) rest else survivors ok (i + 1) rest

/-- Empty database. -/
def emptyDb : Db :=
  { hotdog_entries := [], entry_toppings := [], topping_options := [], nextId := 0 }

/-- Baseline Supabase-variant state: empty database and client state, no
legacy blobs. -/
def sbEmpty : Sb.SbState :=
  { db := emptyDb, toppingOptions := [], entries := [], loading := false,
    error := none, storageV2 := none, storageV1 := none }

/-- Baseline Broadcast-variant state. -/
def bcEmpty : Bc.BcState :=
  { db := emptyDb, toppingOptions := [], entries := [], loading := false,
    error := none, storageV2 := none, storageV1 := none }

/-- Concrete catalog topping used by the demonstration inputs. -/
def demoTopping : ToppingOption :=
  { id := "t1", name := "チーズ", emoji := "🧀", display_order := 1,
    created_at := "2024-01-01T00:00:00Z" }

/-- Two v2 legacy records used to exercise the migration loops. -/
def demoRec1 : Sb.LocalEntry :=
  { createdAt := "2024-01-01T10:00:00Z", completed := false, completedAt := none,
    toppings := [] }

/-- Second demonstration v2 record. -/
def demoRec2 : Sb.LocalEntry :=
  { createdAt := "2024-01-02T11:00:00Z", completed := false, completedAt := none,
    toppings := [] }

/-- Inconsistent v2 legacy record: no completion flag but a completion
timestamp. -/
def demoBadRec : Sb.LocalEntry :=
  { createdAt := "2024-01-01T10:00:00Z", completed := false,
    completedAt := some "2024-01-02T10:00:00Z", toppings := [] }

/-- Demonstration v1 legacy record (the concrete scenario of the spec). -/
def demoV1Rec : Sb.V1Entry :=
  { id := "a", createdAt := "2024-01-01T10:00:00Z", toppings := ["Cheese"] }

/-- Time conversion used by concrete sort scenarios: every timestamp string
of the scenario is the same, so any Date parse yields equal times; the
constant function realises that environment. -/
def constTime : String → Int := fun _ => 0

/-- Demonstration joined entry with id 9 (timestamp shared with the id-1
entry below). -/
def demoEntry9 : HotdogEntryWithToppings :=
  { id := 9, created_at := "2024-03-01T09:00:00Z", completed := false,
    completed_at := none, toppings := [] }

/-- Demonstration joined entry with id 1. -/
def demoEntry1 : HotdogEntryWithToppings :=
  { id := 1, created_at := "2024-03-01T09:00:00Z", completed := false,
    completed_at := none, toppings := [] }

/-- Joined entry listing the same topping twice, as results from an
addEntry call with a duplicated topping id. -/
def demoDupEntry : HotdogEntryWithToppings :=
  { id := 3, created_at := "2024-03-01T09:00:00Z", completed := false,
    completed_at := none, toppings := [demoTopping, demoTopping] }

/-- Demonstration joined entry with one topping. -/
def demoEntryC : HotdogEntryWithToppings :=
  { id := 4, created_at := "2024-03-01T10:00:00Z", completed := false,
    completed_at := none, toppings := [demoTopping] }

/-- Demonstration state of the simple store whose catalog holds the
trimmed demonstration name (the trim of a trimmed literal, so membership
of the trimmed name is definitional). -/
def demoSimpleState : Simple.StoreState :=
  { entries := [], toppingOptions := ["チーズ".trim] }

/-- Demonstration Supabase-variant state with two fetched entries. -/
def demoSt10 : Sb.SbState :=
  { sbEmpty with entries := [demoEntry9, demoEntry1] }

instance : IsTotal Simple.HotdogEntry Simple.displayLe :=
  ⟨by
    intro a b
    unfold Simple.displayLe
    rcases lt_trichotomy a.createdAt b.createdAt with h | h | h
    · exact Or.inl (Or.inl h)
    · rcases le_total a.id b.id with hi | hi
      · exact Or.inl (Or.inr ⟨h, hi⟩)
      · exact Or.inr (Or.inr ⟨h.symm, hi⟩)
    · exact Or.inr (Or.inl h)⟩

instance : IsTrans Simple.HotdogEntry Simple.displayLe :=
  ⟨by
    intro a b c hab hbc
    unfold Simple.displayLe at hab hbc ⊢
    rcases hab with h1 | ⟨h1, h1'⟩
    · rcases hbc with h2 | ⟨h2, h2'⟩
      · exact Or.inl (h1.trans h2)
      · exact Or.inl (lt_of_lt_of_eq h1 h2)
    · rcases hbc with h2 | ⟨h2, h2'⟩
      · exact Or.inl (lt_of_eq_of_lt h1 h2)
      · exact Or.inr ⟨h1.trans h2, h1'.trans h2'⟩⟩

instance (timeOf : String → Int) :
    IsTotal HotdogEntryWithToppings (Sb.displayLe timeOf) :=
  ⟨by
    intro a b
    unfold Sb.displayLe
    by_cases hc : a.completed = b.completed
    · rcases le_total (timeOf a.created_at) (timeOf b.created_at) with h | h
      · exact Or.inl (Or.inl ⟨hc, h⟩)
      · exact Or.inr (Or.inl ⟨hc.symm, h⟩)
    · cases ha : a.completed with
      | false =>
        rw [ha] at hc
        exact Or.inl (Or.inr ⟨hc, rfl⟩)
      | true =>
        rw [ha] at hc
        have hb : b.completed = false := by
          cases hbb : b.completed
          · rfl
          · exact absurd hbb.symm hc
        exact Or.inr (Or.inr ⟨fun h => hc h.symm, hb⟩)⟩

instance (timeOf : String → Int) :
    IsTrans HotdogEntryWithToppings (Sb.displayLe timeOf) :=
  ⟨by
    intro a b c hab hbc
    unfold Sb.displayLe at hab hbc ⊢
    rcases hab with ⟨e1, l1⟩ | ⟨n1, f1⟩
    · rcases hbc with ⟨e2, l2⟩ | ⟨n2, f2⟩
      · exact Or.inl ⟨e1.trans e2, l1.trans l2⟩
      · exact Or.inr ⟨fun h => n2 (e1.symm.trans h), e1.trans f2⟩
    · rcases hbc with ⟨e2, l2⟩ | ⟨n2, f2⟩
      · exact Or.inr ⟨fun h => n1 (h.trans e2.symm), f1⟩
      · have hb : b.completed = true := by
          cases hbb : b.completed
          · exact absurd (f1.trans hbb.symm) n1
          · rfl
        exact absurd f2 (by simp [hb])⟩

/-- Display keys one entry contributes to the frequency object: the
sentinel for a topping-less entry, otherwise the key of each topping. -/
def entryKeys (e : HotdogEntryWithToppings) : List String :=
  if e.toppings.length = 0 then [Sb.sentinelKey] else e.toppings.map Sb.keyOf

/-- Count stored under a key of the frequency object (0 when absent). -/
def lookupCount (m : List (String × Nat)) (k : String) : Nat :=
  match m.find? (fun p => p.1 == k) with
  | some p => p.2
  | none => 0

/-- Sum of the counts of a frequency object. -/
def sumCounts (m : List (String × Nat)) : Nat :=
  (m.map (fun p => p.2)).sum

/-! ## Helper lemmas -/

theorem joinEntries_length (db : Db) :
    (joinEntries db).length = db.hotdog_entries.length := by
  simp [joinEntries, dbSortedByCreated]

theorem bcMigrateToppings_hotdog (opts : List ToppingOption) (ok : Nat → Bool)
    (eid : Nat) :
    ∀ (names : List String) (j : Nat) (db : Db),
      (Bc.migrateToppings opts ok eid j db names).hotdog_entries = db.hotdog_entries
  | [], _, _ => rfl
  | n :: rest, j, db => by
    unfold Bc.migrateToppings
    cases opts.find? (fun o => o.name == n) with
    | none => exact bcMigrateToppings_hotdog opts ok eid rest (j + 1) db
    | some t =>
      by_cases h : ok j = true <;>
        simp [h, bcMigrateToppings_hotdog opts ok eid rest (j + 1)]

theorem bcMigrateToppings_nextId (opts : List ToppingOption) (ok : Nat → Bool)
    (eid : Nat) :
    ∀ (names : List String) (j : Nat) (db : Db),
      (Bc.migrateToppings opts ok eid j db names).nextId = db.nextId
  | [], _, _ => rfl
  | n :: rest, j, db => by
    unfold Bc.migrateToppings
    cases opts.find? (fun o => o.name == n) with
    | none => exact bcMigrateToppings_nextId opts ok eid rest (j + 1) db
    | some t =>
      by_cases h : ok j = true <;>
        simp [h, bcMigrateToppings_nextId opts ok eid rest (j + 1)]

theorem bcV2_shape (opts : List ToppingOption) (eOk : Nat → Bool)
    (tOk : Nat → Nat → Bool) :
    ∀ (rs : List Sb.LocalEntry) (i : Nat) (db : Db),
      (Bc.migrateV2Data opts eOk tOk i db rs).hotdog_entries.map entryShape =
        db.hotdog_entries.map entryShape ++
          (survivors eOk i rs).map
            (fun r => (r.createdAt, r.completed, jsOrNull r.completedAt))
  | [], _, _ => by simp [Bc.migrateV2Data, survivors]
  | r :: rest, i, db => by
    by_cases h : eOk i = true
    · have hrec := bcV2_shape opts eOk tOk rest (i + 1)
      simp only [Bc.migrateV2Data, survivors, h, if_true, Bool.true_eq_false, if_false,
        hrec, bcMigrateToppings_hotdog]
      simp [entryShape]
    · have h' : eOk i = false := by simpa using h
      simp [Bc.migrateV2Data, survivors, h', bcV2_shape opts eOk tOk rest (i + 1)]

theorem bcV1_shape (opts : List ToppingOption) (eOk : Nat → Bool)
    (tOk : Nat → Nat → Bool) :
    ∀ (rs : List Sb.V1Entry) (i : Nat) (db : Db),
      (Bc.migrateV1Data opts eOk tOk i db rs).hotdog_entries.map entryShape =
        db.hotdog_entries.map entryShape ++
          (survivors eOk i rs).map (fun r => (r.createdAt, false, none))
  | [], _, _ => by simp [Bc.migrateV1Data, survivors]
  | r :: rest, i, db => by
    by_cases h : eOk i = true
    · have hrec := bcV1_shape opts eOk tOk rest (i + 1)
      simp only [Bc.migrateV1Data, survivors, h, if_true, Bool.true_eq_false, if_false,
        hrec, bcMigrateToppings_hotdog]
      simp [entryShape]
    · have h' : eOk i = false := by simpa using h
      simp [Bc.migrateV1Data, survivors, h', bcV1_shape opts eOk tOk rest (i + 1)]

theorem sbMigrateLoop_ok (opts : List ToppingOption) (f : Bool) :
    ∀ (rs : List Sb.LocalEntry) (i : Nat) (db : Db),
      (Sb.migrateLoop opts (fun _ => true) (fun _ => true) i db rs).2 = none ∧
      (Sb.migrateLoop opts (fun _ => true) (fun _ => true) i db rs).1.hotdog_entries.map entryShape =
        db.hotdog_entries.map entryShape ++
          rs.map (fun r => (r.createdAt, r.completed, jsOrNull r.completedAt))
  | [], _, _ => by simp [Sb.migrateLoop]
  | r :: rest, i, db => by
    have hrec := sbMigrateLoop_ok opts f rest (i + 1)
    simp [Sb.migrateLoop, hrec, entryShape, apply_ite Db.hotdog_entries]

theorem bcV1_mem (opts : List ToppingOption) (eOk : Nat → Bool)
    (tOk : Nat → Nat → Bool) :
    ∀ (rs : List Sb.V1Entry) (i : Nat) (db : Db),
      ∀ e ∈ (Bc.migrateV1Data opts eOk tOk i db rs).hotdog_entries,
        e ∈ db.hotdog_entries ∨ (e.completed = false ∧ e.completed_at = none)
  | [], _, _, e, he => Or.inl he
  | r :: rest, i, db, e, he => by
    by_cases h : eOk i = true
    · simp only [Bc.migrateV1Data, h, Bool.true_eq_false, if_false] at he
      rcases bcV1_mem opts eOk tOk rest (i + 1) _ e he with hmem | hprop
      · rw [bcMigrateToppings_hotdog] at hmem
        rcases List.mem_append.mp hmem with hold | hnew
        · exact Or.inl hold
        · right
          rcases List.mem_singleton.mp hnew with rfl
          exact ⟨rfl, rfl⟩
      · exact Or.inr hprop
    · have h' : eOk i = false := by simpa using h
      simp only [Bc.migrateV1Data, h', if_true] at he
      exact bcV1_mem opts eOk tOk rest (i + 1) db e he

theorem sbMigrate_of_noStorage (eOk tOk : Nat → Bool) (f : Bool)
    (st : Sb.SbState) (h2 : st.storageV2 = none) (h1 : st.storageV1 = none) :
    Sb.migrateFromLocalStorage eOk tOk f st = st := by
  unfold Sb.migrateFromLocalStorage
  rw [h2, h1]

theorem fetchEntries_storageV2 (ok : Bool) (st : Sb.SbState) :
    (Sb.fetchEntries ok st).storageV2 = st.storageV2 := by
  unfold Sb.fetchEntries
  split <;> rfl

theorem fetchEntries_storageV1 (ok : Bool) (st : Sb.SbState) :
    (Sb.fetchEntries ok st).storageV1 = st.storageV1 := by
  unfold Sb.fetchEntries
  split <;> rfl

theorem fetchEntries_db (ok : Bool) (st : Sb.SbState) :
    (Sb.fetchEntries ok st).db = st.db := by
  unfold Sb.fetchEntries
  split <;> rfl

theorem sbMigrate_allOk_storage (f : Bool) (st : Sb.SbState) :
    (Sb.migrateFromLocalStorage (fun _ => true) (fun _ => true) f st).storageV2 = none ∧
    (Sb.migrateFromLocalStorage (fun _ => true) (fun _ => true) f st).storageV1 = none := by
  cases h2 : st.storageV2 with
  | none =>
    cases h1 : st.storageV1 with
    | none =>
      rw [sbMigrate_of_noStorage _ _ _ _ h2 h1]
      exact ⟨h2, h1⟩
    | some v1 =>
      cases hres : Sb.migrateLoop st.toppingOptions (fun _ => true) (fun _ => true) 0 st.db
          (v1.map Sb.v1ToLocal) with
      | mk db1 err =>
        have herr : err = none := by
          have h := (sbMigrateLoop_ok st.toppingOptions f (v1.map Sb.v1ToLocal) 0 st.db).1
          rw [hres] at h
          exact h
        subst herr
        simp [Sb.migrateFromLocalStorage, h2, h1, hres, fetchEntries_storageV2,
          fetchEntries_storageV1]
  | some l =>
    cases hres : Sb.migrateLoop st.toppingOptions (fun _ => true) (fun _ => true) 0 st.db l with
    | mk db1 err =>
      have herr : err = none := by
        have h := (sbMigrateLoop_ok st.toppingOptions f l 0 st.db).1
        rw [hres] at h
        exact h
      subst herr
      simp [Sb.migrateFromLocalStorage, h2, hres, fetchEntries_storageV2,
        fetchEntries_storageV1]

theorem completeEntry_db (id : Nat) (now : String) (f : Bool) (st : Sb.SbState) :
    (Sb.completeEntry id now true f st).db.hotdog_entries =
      st.db.hotdog_entries.map (fun e =>
        if e.id = id then { e with completed := true, completed_at := some now } else e) := by
  unfold Sb.completeEntry
  simp [fetchEntries_db]

theorem uncompleteEntry_db (id : Nat) (f : Bool) (st : Sb.SbState) :
    (Sb.uncompleteEntry id true f st).db.hotdog_entries =
      st.db.hotdog_entries.map (fun e =>
        if e.id = id then { e with completed := false, completed_at := none } else e) := by
  unfold Sb.uncompleteEntry
  simp [fetchEntries_db]

theorem sbMigrateLoop_inv (opts : List ToppingOption) (eOk tOk : Nat → Bool) :
    ∀ (rs : List Sb.LocalEntry) (i : Nat) (db : Db),
      (∀ r ∈ rs, (jsOrNull r.completedAt).isSome = r.completed) → dbInv db →
      dbInv (Sb.migrateLoop opts eOk tOk i db rs).1
  | [], _, _, _, hdb => hdb
  | r :: rest, i, db, hcons, hdb => by
    have hr := hcons r (List.mem_cons_self r rest)
    have hrest : ∀ x ∈ rest, (jsOrNull x.completedAt).isSome = x.completed :=
      fun x hx => hcons x (List.mem_cons_of_mem r hx)
    have hdb1 : dbInv { db with
        hotdog_entries := db.hotdog_entries ++
          [{ id := db.nextId, created_at := r.createdAt, completed := r.completed,
             completed_at := jsOrNull r.completedAt }]
        nextId := db.nextId + 1 } := by
      intro e he
      rcases List.mem_append.mp he with hold | hnew
      · exact hdb e hold
      · rcases List.mem_singleton.mp hnew with rfl
        exact hr
    by_cases h : eOk i = true
    · simp only [Sb.migrateLoop, h, Bool.true_eq_false, if_false]
      split
      · exact hdb1
      · apply sbMigrateLoop_inv opts eOk tOk rest (i + 1) _ hrest
        intro e he
        rw [apply_ite Db.hotdog_entries] at he
        simp only [ite_self] at he
        exact hdb1 e he
    · have h' : eOk i = false := by simpa using h
      simp only [Sb.migrateLoop, h', if_true]
      exact hdb

/-! ## Claim C1 -/

/-- C1, counterexample.  In the Supabase variant, addEntry with an empty
topping list is not a no-op: called on the empty store with every backend
call succeeding, it creates an entry and totalHotdogs goes from 0 to 1. -/
theorem claim1_counterexample :
    Sb.totalHotdogs sbEmpty = 0 ∧
    Sb.totalHotdogs (Sb.addEntry [] "2024-06-01T12:00:00Z" true true true sbEmpty) = 1 ∧
    (Sb.addEntry [] "2024-06-01T12:00:00Z" true true true sbEmpty).db.hotdog_entries.length = 1 := by
  refine ⟨rfl, ?_, rfl⟩
  rfl

/-- C1, amended.  Only the simple localStorage store treats addEntry with
an empty topping list as a no-op.  In the Supabase variant, addEntry with
an empty topping list inserts a topping-less entry row unconditionally: on
a successful run the entry collection and totalHotdogs grow by one. -/
theorem claim1_amended :
    (∀ (s : Simple.StoreState) (newId now : String),
      Simple.addEntry s newId now [] = s) ∧
    (∀ (st : Sb.SbState) (now : String),
      Sb.totalHotdogs (Sb.addEntry [] now true true true st) =
        st.db.hotdog_entries.length + 1) := by
  constructor
  · intro s newId now
    rfl
  · intro st now
    show (joinEntries _).length = _
    rw [joinEntries_length]
    simp

/-! ## Claim C2 -/

/-- C2, counterexample.  In the Supabase variant migration, a failed insert
of the first record aborts the whole batch: with a two-record v2 blob and a
failure oracle failing only record 0, the run ends with the error recorded,
no entry row present (so record 1, whose insert would have succeeded, was
never attempted), and the legacy blob still in place. -/
theorem claim2_counterexample :
    (Sb.migrateFromLocalStorage (fun i => i != 0) (fun _ => true) true
        { sbEmpty with storageV2 := some [demoRec1, demoRec2] }).db.hotdog_entries = [] ∧
    (Sb.migrateFromLocalStorage (fun i => i != 0) (fun _ => true) true
        { sbEmpty with storageV2 := some [demoRec1, demoRec2] }).storageV2 =
      some [demoRec1, demoRec2] ∧
    (Sb.migrateFromLocalStorage (fun i => i != 0) (fun _ => true) true
        { sbEmpty with storageV2 := some [demoRec1, demoRec2] }).error =
      some "マイグレーションエラー" := by
  exact ⟨rfl, rfl, rfl⟩

/-- C2, amended.  Per-record error tolerance holds in the Broadcast
variant: in both its migration loops, the set of entry rows created is
exactly the records whose own insert succeeded, in order, independently of
failures of earlier records.  In the Supabase variant a single failed
record insert instead aborts the remaining records. -/
theorem claim2_amended :
    (∀ (opts : List ToppingOption) (eOk : Nat → Bool) (tOk : Nat → Nat → Bool)
        (i : Nat) (db : Db) (rs : List Sb.LocalEntry),
      (Bc.migrateV2Data opts eOk tOk i db rs).hotdog_entries.map entryShape =
        db.hotdog_entries.map entryShape ++
          (survivors eOk i rs).map
            (fun r => (r.createdAt, r.completed, jsOrNull r.completedAt))) ∧
    (∀ (opts : List ToppingOption) (eOk : Nat → Bool) (tOk : Nat → Nat → Bool)
        (i : Nat) (db : Db) (rs : List Sb.V1Entry),
      (Bc.migrateV1Data opts eOk tOk i db rs).hotdog_entries.map entryShape =
        db.hotdog_entries.map entryShape ++
          (survivors eOk i rs).map (fun r => (r.createdAt, false, none))) :=
  ⟨fun opts eOk tOk i db rs => bcV2_shape opts eOk tOk rs i db,
   fun opts eOk tOk i db rs => bcV1_shape opts eOk tOk rs i db⟩

/-! ## Claim C3 -/

/-- C3, counterexample.  In the Broadcast variant, a v1 legacy record is
migrated with completed forced to false and no completion timestamp, not
with completed true: the spec scenario record produces exactly that row. -/
theorem claim3_counterexample :
    (Bc.migrateV1Data [] (fun _ => true) (fun _ _ => true) 0 emptyDb
        [demoV1Rec]).hotdog_entries =
      [{ id := 0, created_at := "2024-01-01T10:00:00Z", completed := false,
         completed_at := none }] ∧
    (Bc.migrateV1Data [] (fun _ => true) (fun _ _ => true) 0 emptyDb
        [demoV1Rec]).hotdog_entries.map (fun e => e.completed) ≠ [true] := by
  constructor
  · rfl
  · decide

/-- C3, amended.  Only the Supabase variant migrates v1 records with
completion forced on and the completion timestamp copied from the creation
timestamp (for records with a non-empty creation timestamp, the or-null
coercion collapsing an empty string).  The Broadcast variant migrates every
v1 record with completed false and no completion timestamp. -/
theorem claim3_amended :
    (∀ (v1 : List Sb.V1Entry) (f : Bool) (st : Sb.SbState),
      (∀ r ∈ v1, r.createdAt ≠ "") →
      (Sb.migrateFromLocalStorage (fun _ => true) (fun _ => true) f
          { st with storageV2 := none, storageV1 := some v1 }).db.hotdog_entries.map entryShape =
        st.db.hotdog_entries.map entryShape ++
          v1.map (fun r => (r.createdAt, true, some r.createdAt))) ∧
    (∀ (opts : List ToppingOption) (eOk : Nat → Bool) (tOk : Nat → Nat → Bool)
        (i : Nat) (db : Db) (rs : List Sb.V1Entry),
      ∀ e ∈ (Bc.migrateV1Data opts eOk tOk i db rs).hotdog_entries,
        e ∈ db.hotdog_entries ∨ (e.completed = false ∧ e.completed_at = none)) := by
  constructor
  · intro v1 f st hne
    cases hres : Sb.migrateLoop st.toppingOptions (fun _ => true) (fun _ => true) 0 st.db
        (v1.map Sb.v1ToLocal) with
    | mk db1 err =>
      have hok := sbMigrateLoop_ok st.toppingOptions f (v1.map Sb.v1ToLocal) 0 st.db
      rw [hres] at hok
      obtain ⟨herr, hshape⟩ := hok
      subst herr
      have hdb : (Sb.migrateFromLocalStorage (fun _ => true) (fun _ => true) f
          { st with storageV2 := none, storageV1 := some v1 }).db = db1 := by
        simp [Sb.migrateFromLocalStorage, hres, fetchEntries_db]
      rw [hdb, hshape]
      congr 1
      rw [List.map_map]
      apply List.map_congr_left
      intro r hr
      have : r.createdAt ≠ "" := hne r hr
      simp [Sb.v1ToLocal, jsOrNull, this]
  · intro opts eOk tOk i db rs e he
    exact bcV1_mem opts eOk tOk rs i db e he

/-- C3, witness.  The amended Supabase statement applied to the concrete
spec scenario record. -/
theorem claim3_witness :
    (∀ r ∈ [demoV1Rec], r.createdAt ≠ "") ∧
    (Sb.migrateFromLocalStorage (fun _ => true) (fun _ => true) true
        { sbEmpty with storageV2 := none, storageV1 := some [demoV1Rec] }).db.hotdog_entries.map entryShape =
      [("2024-01-01T10:00:00Z", true, some "2024-01-01T10:00:00Z")] := by
  refine ⟨by decide, ?_⟩
  have h := claim3_amended.1 [demoV1Rec] true sbEmpty (by decide)
  simpa using h

/-! ## Claim C4 -/

/-- C4, counterexample.  In the Broadcast variant, a fully successful run
deletes only the blob it migrated: starting with both a v2 blob (with no
records) and a v1 blob present, the first run leaves the v1 blob in place
and a second run migrates it, creating an entry — the second run is not a
no-op. -/
theorem claim4_counterexample :
    (Bc.migrateFromLocalStorage (fun _ => true) (fun _ _ => true)
        { bcEmpty with storageV2 := some ⟨[]⟩, storageV1 := some [demoV1Rec] }).storageV1 =
      some [demoV1Rec] ∧
    (Bc.migrateFromLocalStorage (fun _ => true) (fun _ _ => true)
        { bcEmpty with storageV2 := some ⟨[]⟩, storageV1 := some [demoV1Rec] }).db.hotdog_entries.length = 0 ∧
    (Bc.migrateFromLocalStorage (fun _ => true) (fun _ _ => true)
        (Bc.migrateFromLocalStorage (fun _ => true) (fun _ _ => true)
          { bcEmpty with storageV2 := some ⟨[]⟩, storageV1 := some [demoV1Rec] })).db.hotdog_entries.length = 1 := by
  exact ⟨rfl, rfl, rfl⟩

/-- C4, amended.  In the Supabase variant the claim holds: a fully
successful pass deletes both legacy keys, an immediately following run of
any outcome is an exact no-op, and a run finding no legacy blob changes
nothing.  In the Broadcast variant a run deletes only the key it migrated,
so idempotence holds whenever at most one legacy key was present (either
no v1 blob or no v2 blob), while with both keys present the leftover v1
blob makes a second run migrate again. -/
theorem claim4_amended :
    (∀ (eOk2 tOk2 : Nat → Bool) (f2 f : Bool) (st : Sb.SbState),
      Sb.migrateFromLocalStorage eOk2 tOk2 f2
          (Sb.migrateFromLocalStorage (fun _ => true) (fun _ => true) f st) =
        Sb.migrateFromLocalStorage (fun _ => true) (fun _ => true) f st) ∧
    (∀ (eOk tOk : Nat → Bool) (f : Bool) (st : Sb.SbState),
      Sb.migrateFromLocalStorage eOk tOk f
          { st with storageV2 := none, storageV1 := none } =
        { st with storageV2 := none, storageV1 := none }) ∧
    (∀ (eOk2 eOk : Nat → Bool) (tOk2 tOk : Nat → Nat → Bool) (st : Bc.BcState),
      Bc.migrateFromLocalStorage eOk2 tOk2
          (Bc.migrateFromLocalStorage eOk tOk { st with storageV1 := none }) =
        Bc.migrateFromLocalStorage eOk tOk { st with storageV1 := none }) ∧
    (∀ (eOk2 eOk : Nat → Bool) (tOk2 tOk : Nat → Nat → Bool) (st : Bc.BcState),
      Bc.migrateFromLocalStorage eOk2 tOk2
          (Bc.migrateFromLocalStorage eOk tOk { st with storageV2 := none }) =
        Bc.migrateFromLocalStorage eOk tOk { st with storageV2 := none }) := by
  refine ⟨?_, ?_, ?_, ?_⟩
  · intro eOk2 tOk2 f2 f st
    obtain ⟨h2, h1⟩ := sbMigrate_allOk_storage f st
    exact sbMigrate_of_noStorage _ _ _ _ h2 h1
  · intro eOk tOk f st
    exact sbMigrate_of_noStorage _ _ _ _ rfl rfl
  · intro eOk2 eOk tOk2 tOk st
    cases h2 : st.storageV2 <;>
      simp [Bc.migrateFromLocalStorage, h2]
  · intro eOk2 eOk tOk2 tOk st
    cases h1 : st.storageV1 <;>
      simp [Bc.migrateFromLocalStorage, h1]

/-! ## Claim C5 -/

/-- C5, counterexample.  The per-operation rollback guarantee fails: in the
Supabase addEntry, when the entry insert succeeds and the following
entry_toppings insert fails, the error is recorded and the operation
aborts, but the already-inserted entry row stays in the backing store, so
the state does not remain as it was before the attempted mutation. -/
theorem claim5_counterexample :
    (Sb.addEntry ["t1"] "2024-06-01T12:00:00Z" true false true sbEmpty).error =
      some "エントリー追加エラー" ∧
    sbEmpty.db.hotdog_entries.length = 0 ∧
    (Sb.addEntry ["t1"] "2024-06-01T12:00:00Z" true false true sbEmpty).db.hotdog_entries.length = 1 := by
  exact ⟨rfl, rfl, rfl⟩

/-- C5, amended.  Every backend failure in the store operations is caught
locally and recorded in the shared error slot, and no failure is fatal; the
local entry collection is never modified by a failing call.  When the first
backend call of an operation fails the whole state (local refs and backing
store) is unchanged apart from the error and loading flags.  But an
operation is not atomic against the backing store: in addEntry, a failure
of the topping insert after a successful entry insert leaves the new entry
row in the backing store. -/
theorem claim5_amended :
    (∀ (tids : List String) (now : String) (t f : Bool) (st : Sb.SbState),
      Sb.addEntry tids now false t f st =
        { st with loading := false, error := some "エントリー追加エラー" }) ∧
    (∀ (tid : String) (tids : List String) (now : String) (f : Bool) (st : Sb.SbState),
      (Sb.addEntry (tid :: tids) now true false f st).error = some "エントリー追加エラー" ∧
      (Sb.addEntry (tid :: tids) now true false f st).entries = st.entries ∧
      (Sb.addEntry (tid :: tids) now true false f st).db.entry_toppings = st.db.entry_toppings ∧
      (Sb.addEntry (tid :: tids) now true false f st).db.hotdog_entries =
        st.db.hotdog_entries ++
          [{ id := st.db.nextId, created_at := now, completed := false, completed_at := none }]) ∧
    (∀ (id : Nat) (f : Bool) (st : Sb.SbState),
      Sb.deleteEntry id false f st =
        { st with loading := false, error := some "エントリー削除エラー" }) ∧
    (∀ (id : Nat) (now : String) (f : Bool) (st : Sb.SbState),
      Sb.completeEntry id now false f st =
        { st with loading := false, error := some "エントリー完了エラー" }) ∧
    (∀ (id : Nat) (f : Bool) (st : Sb.SbState),
      Sb.uncompleteEntry id false f st =
        { st with loading := false, error := some "エントリー未完了化エラー" }) ∧
    (∀ st : Sb.SbState,
      Sb.fetchEntries false st =
        { st with loading := false, error := some "エントリー取得エラー" }) ∧
    (∀ (n e ni cn : String) (i : Bool) (st : Sb.SbState),
      Sb.addCustomTopping n e ni cn false true i st =
        { st with loading := false, error := some "トッピング追加エラー" } ∧
      Sb.addCustomTopping n e ni cn true false i st =
        { st with loading := false, error := some "トッピング追加エラー" }) := by
  refine ⟨?_, ?_, ?_, ?_, ?_, ?_, ?_⟩
  · intro tids now t f st
    rfl
  · intro tid tids now f st
    refine ⟨?_, ?_, ?_, ?_⟩ <;>
      simp [Sb.addEntry]
  · intro id f st
    rfl
  · intro id now f st
    rfl
  · intro id f st
    rfl
  · intro st
    rfl
  · intro n e ni cn i st
    constructor
    · rfl
    · simp [Sb.addCustomTopping]

/-! ## Claim C6 -/

/-- C6, counterexample.  The completed-iff-timestamp invariant is not
maintained by migration inserts: a v2 legacy record carrying a completion
timestamp but completed false (the v2 blob is arbitrary external data) is
copied into a row violating the invariant. -/
theorem claim6_counterexample :
    (Sb.migrateFromLocalStorage (fun _ => true) (fun _ => true) true
        { sbEmpty with storageV2 := some [demoBadRec] }).db.hotdog_entries.map
      (fun e => (e.completed, e.completed_at)) =
      [(false, some "2024-01-02T10:00:00Z")] ∧
    ¬ dbInv (Sb.migrateFromLocalStorage (fun _ => true) (fun _ => true) true
        { sbEmpty with storageV2 := some [demoBadRec] }).db := by
  constructor
  · rfl
  · decide

/-- C6, amended.  Entry creation, deletion and the completion toggles
preserve the completed-iff-timestamp invariant under every backend outcome;
completeEntry sets the flag together with its timestamp and uncompleteEntry
clears both together, restoring completed false with the timestamp absent.
A migration insert preserves the invariant only when the legacy records
themselves satisfy it (v2 records whose or-null-coerced completion
timestamp is present exactly when their flag is set; v1 records with a
non-empty creation timestamp): an inconsistent v2 record is copied
verbatim and breaks it. -/
theorem claim6_amended :
    (∀ (tids : List String) (now : String) (a b c : Bool) (st : Sb.SbState),
      dbInv st.db → dbInv (Sb.addEntry tids now a b c st).db) ∧
    (∀ (id : Nat) (a b : Bool) (st : Sb.SbState),
      dbInv st.db → dbInv (Sb.deleteEntry id a b st).db) ∧
    (∀ (id : Nat) (now : String) (a b : Bool) (st : Sb.SbState),
      dbInv st.db → dbInv (Sb.completeEntry id now a b st).db) ∧
    (∀ (id : Nat) (a b : Bool) (st : Sb.SbState),
      dbInv st.db → dbInv (Sb.uncompleteEntry id a b st).db) ∧
    (∀ (id : Nat) (now : String) (f : Bool) (st : Sb.SbState),
      ∀ e ∈ (Sb.completeEntry id now true f st).db.hotdog_entries,
        e.id = id → e.completed = true ∧ e.completed_at = some now) ∧
    (∀ (id : Nat) (now : String) (f1 f2 : Bool) (st : Sb.SbState),
      ∀ e ∈ (Sb.uncompleteEntry id true f2
          (Sb.completeEntry id now true f1 st)).db.hotdog_entries,
        e.id = id → e.completed = false ∧ e.completed_at = none) ∧
    (∀ (eOk tOk : Nat → Bool) (f : Bool) (st : Sb.SbState),
      dbInv st.db →
      (∀ l, st.storageV2 = some l →
        ∀ r ∈ l, (jsOrNull r.completedAt).isSome = r.completed) →
      (∀ v1, st.storageV1 = some v1 → ∀ r ∈ v1, r.createdAt ≠ "") →
      dbInv (Sb.migrateFromLocalStorage eOk tOk f st).db) := by
  refine ⟨?_, ?_, ?_, ?_, ?_, ?_, ?_⟩
  · intro tids now a b c st hdb
    unfold Sb.addEntry
    cases a with
    | false => exact hdb
    | true =>
      simp only [Bool.true_eq_false, if_false]
      split
      · intro e he
        rcases List.mem_append.mp he with hold | hnew
        · exact hdb e hold
        · rcases List.mem_singleton.mp hnew with rfl
          rfl
      · intro e he
        rw [fetchEntries_db] at he
        rw [apply_ite Db.hotdog_entries] at he
        simp only [ite_self] at he
        rcases List.mem_append.mp he with hold | hnew
        · exact hdb e hold
        · rcases List.mem_singleton.mp hnew with rfl
          rfl
  · intro id a b st hdb
    unfold Sb.deleteEntry
    cases a with
    | false => exact hdb
    | true =>
      simp only [Bool.true_eq_false, if_false]
      intro e he
      rw [fetchEntries_db] at he
      exact hdb e (List.mem_of_mem_filter he)
  · intro id now a b st hdb
    cases a with
    | false => exact hdb
    | true =>
      intro e he
      rw [completeEntry_db] at he
      rcases List.mem_map.mp he with ⟨x, hx, rfl⟩
      by_cases hid : x.id = id <;> simp [hid, hdb x hx]
  · intro id a b st hdb
    cases a with
    | false => exact hdb
    | true =>
      intro e he
      rw [uncompleteEntry_db] at he
      rcases List.mem_map.mp he with ⟨x, hx, rfl⟩
      by_cases hid : x.id = id <;> simp [hid, hdb x hx]
  · intro id now f st e he hid
    rw [completeEntry_db] at he
    rcases List.mem_map.mp he with ⟨x, hx, rfl⟩
    by_cases h : x.id = id
    · simp [h]
    · simp only [h, if_false] at hid ⊢
  · intro id now f1 f2 st e he hid
    rw [uncompleteEntry_db] at he
    rcases List.mem_map.mp he with ⟨x, hx, rfl⟩
    by_cases h : x.id = id
    · simp [h]
    · simp only [h, if_false] at hid ⊢
  · intro eOk tOk f st hdb hv2 hv1
    cases h2 : st.storageV2 with
    | some l =>
      have hcons := hv2 l h2
      cases hres : Sb.migrateLoop st.toppingOptions eOk tOk 0 st.db l with
      | mk db1 err =>
        have hinv := sbMigrateLoop_inv st.toppingOptions eOk tOk l 0 st.db hcons hdb
        rw [hres] at hinv
        cases err with
        | none =>
          have hd : (Sb.migrateFromLocalStorage eOk tOk f st).db = db1 := by
            simp [Sb.migrateFromLocalStorage, h2, hres, fetchEntries_db]
          rw [hd]
          exact hinv
        | some msg =>
          have hd : (Sb.migrateFromLocalStorage eOk tOk f st).db = db1 := by
            simp [Sb.migrateFromLocalStorage, h2, hres]
          rw [hd]
          exact hinv
    | none =>
      cases h1 : st.storageV1 with
      | none =>
        rw [sbMigrate_of_noStorage _ _ _ _ h2 h1]
        exact hdb
      | some v1 =>
        have hne := hv1 v1 h1
        have hcons : ∀ r ∈ v1.map Sb.v1ToLocal,
            (jsOrNull r.completedAt).isSome = r.completed := by
          intro r hr
          rcases List.mem_map.mp hr with ⟨x, hx, rfl⟩
          simp [Sb.v1ToLocal, jsOrNull, hne x hx]
        cases hres : Sb.migrateLoop st.toppingOptions eOk tOk 0 st.db
            (v1.map Sb.v1ToLocal) with
        | mk db1 err =>
          have hinv := sbMigrateLoop_inv st.toppingOptions eOk tOk
            (v1.map Sb.v1ToLocal) 0 st.db hcons hdb
          rw [hres] at hinv
          cases err with
          | none =>
            have hd : (Sb.migrateFromLocalStorage eOk tOk f st).db = db1 := by
              simp [Sb.migrateFromLocalStorage, h2, h1, hres, fetchEntries_db]
            rw [hd]
            exact hinv
          | some msg =>
            have hd : (Sb.migrateFromLocalStorage eOk tOk f st).db = db1 := by
              simp [Sb.migrateFromLocalStorage, h2, h1, hres]
            rw [hd]
            exact hinv

/-- C6, witness.  The amended migration conjunct applied to a concrete
state holding a consistent v2 blob. -/
theorem claim6_witness :
    dbInv (Sb.migrateFromLocalStorage (fun _ => true) (fun _ => true) true
      { sbEmpty with storageV2 := some [demoRec1] }).db := by
  apply claim6_amended.2.2.2.2.2.2
  · decide
  · intro l hl
    cases hl
    decide
  · intro v1 hv
    cases hv

/-! ## Frequency-object lemmas for claim C7 -/

theorem lookupCount_cons (p : String × Nat) (rest : List (String × Nat)) (k : String) :
    lookupCount (p :: rest) k = if p.1 = k then p.2 else lookupCount rest k := by
  by_cases hb : p.1 = k
  · simp only [lookupCount, List.find?]
    have : (p.1 == k) = true := by simpa using hb
    rw [this]
    simp [hb]
  · simp only [lookupCount, List.find?]
    have : (p.1 == k) = false := by simpa using hb
    rw [this]
    simp [hb]

theorem bump_lookup_same : ∀ (m : List (String × Nat)) (k : String),
    lookupCount (Sb.bump m k) k = lookupCount m k + 1
  | [], k => by simp [Sb.bump, lookupCount_cons, lookupCount]
  | p :: rest, k => by
    by_cases hp : p.1 = k
    · simp [Sb.bump, lookupCount_cons, hp]
    · simp [Sb.bump, lookupCount_cons, hp, bump_lookup_same rest k]

theorem bump_lookup_other : ∀ (m : List (String × Nat)) (k k' : String),
    k' ≠ k → lookupCount (Sb.bump m k) k' = lookupCount m k'
  | [], k, k', hne => by
    have hb : k ≠ k' := fun h => hne h.symm
    simp [Sb.bump, lookupCount_cons, lookupCount, hb]
  | p :: rest, k, k', hne => by
    by_cases hp : p.1 = k
    · have hb : p.1 ≠ k' := by
        rw [hp]
        exact fun h => hne h.symm
      have hkk : k ≠ k' := fun h => hne h.symm
      simp [Sb.bump, lookupCount_cons, hp, hb, hkk]
    · simp [Sb.bump, lookupCount_cons, hp, bump_lookup_other rest k k' hne]

theorem bump_fst_mem : ∀ (m : List (String × Nat)) (k k' : String),
    k' ∈ (Sb.bump m k).map Prod.fst ↔ k' ∈ m.map Prod.fst ∨ k' = k
  | [], k, k' => by simp [Sb.bump]
  | p :: rest, k, k' => by
    by_cases hp : p.1 = k
    · subst hp
      simp only [Sb.bump, if_true, List.map_cons, List.mem_cons]
      constructor
      · rintro (h | h)
        · exact Or.inl (Or.inl h)
        · exact Or.inl (Or.inr h)
      · rintro ((h | h) | h)
        · exact Or.inl h
        · exact Or.inr h
        · subst h
          exact Or.inl rfl
    · simp only [Sb.bump, hp, if_false, List.map_cons, List.mem_cons,
        bump_fst_mem rest k k']
      tauto

theorem bump_fst_nodup : ∀ (m : List (String × Nat)) (k : String),
    (m.map Prod.fst).Nodup → ((Sb.bump m k).map Prod.fst).Nodup
  | [], k, _ => by simp [Sb.bump]
  | p :: rest, k, hnd => by
    rcases List.nodup_cons.mp hnd with ⟨hp1, hrest⟩
    by_cases hp : p.1 = k
    · simpa [Sb.bump, hp] using List.nodup_cons.mpr ⟨hp1, hrest⟩
    · simp only [Sb.bump, hp, if_false, List.map_cons]
      refine List.nodup_cons.mpr ⟨?_, bump_fst_nodup rest k hrest⟩
      rw [bump_fst_mem]
      rintro (h | h)
      · exact hp1 h
      · exact hp h

theorem bump_sumCounts : ∀ (m : List (String × Nat)) (k : String),
    sumCounts (Sb.bump m k) = sumCounts m + 1
  | [], k => by simp [Sb.bump, sumCounts]
  | p :: rest, k => by
    by_cases hp : p.1 = k
    · simp [Sb.bump, sumCounts, hp]
      ring
    · simp [Sb.bump, sumCounts, hp, bump_sumCounts rest k]
      have := bump_sumCounts rest k
      simp [sumCounts] at this
      omega

theorem foldl_bump_lookup : ∀ (ks : List String) (m : List (String × Nat)) (k : String),
    ks.Nodup →
    lookupCount (ks.foldl Sb.bump m) k =
      lookupCount m k + (if k ∈ ks then 1 else 0)
  | [], m, k, _ => by simp
  | k0 :: ks, m, k, hnd => by
    rcases List.nodup_cons.mp hnd with ⟨hk0, hks⟩
    rw [List.foldl_cons, foldl_bump_lookup ks (Sb.bump m k0) k hks]
    by_cases hk : k = k0
    · subst hk
      rw [bump_lookup_same]
      have : k ∉ ks := hk0
      simp [this]
    · rw [bump_lookup_other m k0 k hk]
      by_cases hmem : k ∈ ks <;> simp [hmem, hk]

theorem foldl_bump_fst_nodup : ∀ (ks : List String) (m : List (String × Nat)),
    (m.map Prod.fst).Nodup → ((ks.foldl Sb.bump m).map Prod.fst).Nodup
  | [], _, h => h
  | k0 :: ks, m, h =>
    foldl_bump_fst_nodup ks (Sb.bump m k0) (bump_fst_nodup m k0 h)

theorem foldl_bump_sumCounts : ∀ (ks : List String) (m : List (String × Nat)),
    sumCounts (ks.foldl Sb.bump m) = sumCounts m + ks.length
  | [], _ => by simp
  | k0 :: ks, m => by
    rw [List.foldl_cons, foldl_bump_sumCounts ks (Sb.bump m k0), bump_sumCounts]
    simp
    omega

theorem freqMap_step (m : List (String × Nat)) (e : HotdogEntryWithToppings) :
    (if e.toppings.length = 0 then Sb.bump m Sb.sentinelKey
      else e.toppings.foldl (fun m t => Sb.bump m (Sb.keyOf t)) m) =
      (entryKeys e).foldl Sb.bump m := by
  unfold entryKeys
  by_cases h : e.toppings.length = 0
  · simp [h]
  · simp only [h, if_false]
    rw [List.foldl_map]

theorem freqMap_lookup_aux (k : String) :
    ∀ (es : List HotdogEntryWithToppings) (m : List (String × Nat)),
      (∀ e ∈ es, (entryKeys e).Nodup) →
      lookupCount (es.foldl
          (fun m e =>
            if e.toppings.length = 0 then Sb.bump m Sb.sentinelKey
            else e.toppings.foldl (fun m t => Sb.bump m (Sb.keyOf t)) m) m) k =
        lookupCount m k + es.countP (fun e => decide (k ∈ entryKeys e))
  | [], m, _ => by simp
  | e :: es, m, hnd => by
    rw [List.foldl_cons, freqMap_lookup_aux k es _ (fun x hx => hnd x (List.mem_cons_of_mem e hx)),
      freqMap_step, foldl_bump_lookup _ _ _ (hnd e (List.mem_cons_self e es))]
    rw [List.countP_cons]
    by_cases hmem : k ∈ entryKeys e <;> simp [hmem] <;> omega

theorem freqMap_lookup (es : List HotdogEntryWithToppings) (k : String)
    (hnd : ∀ e ∈ es, (entryKeys e).Nodup) :
    lookupCount (Sb.freqMap es) k = es.countP (fun e => decide (k ∈ entryKeys e)) := by
  have h := freqMap_lookup_aux k es [] hnd
  simpa [Sb.freqMap, lookupCount] using h

theorem freqMap_fst_nodup (es : List HotdogEntryWithToppings) :
    ((Sb.freqMap es).map Prod.fst).Nodup := by
  unfold Sb.freqMap
  generalize hm : ([] : List (String × Nat)) = m
  have hmnd : (m.map Prod.fst).Nodup := by rw [← hm]; simp
  clear hm
  induction es generalizing m with
  | nil => exact hmnd
  | cons e es ih =>
    rw [List.foldl_cons]
    apply ih
    rw [freqMap_step]
    exact foldl_bump_fst_nodup _ _ hmnd

theorem freqMap_sumCounts (es : List HotdogEntryWithToppings) :
    sumCounts (Sb.freqMap es) =
      (es.map (fun e => e.toppings.length)).sum +
        es.countP (fun e => decide (e.toppings.length = 0)) := by
  unfold Sb.freqMap
  have haux : ∀ (l : List HotdogEntryWithToppings) (m : List (String × Nat)),
      sumCounts (l.foldl
          (fun m e =>
            if e.toppings.length = 0 then Sb.bump m Sb.sentinelKey
            else e.toppings.foldl (fun m t => Sb.bump m (Sb.keyOf t)) m) m) =
        sumCounts m + (l.map (fun e => e.toppings.length)).sum +
          l.countP (fun e => decide (e.toppings.length = 0)) := by
    intro l
    induction l with
    | nil => simp
    | cons e l ih =>
      intro m
      rw [List.foldl_cons, ih, freqMap_step]
      rw [foldl_bump_sumCounts]
      have hlen : (entryKeys e).length =
          e.toppings.length + (if e.toppings.length = 0 then 1 else 0) := by
        unfold entryKeys
        by_cases h : e.toppings.length = 0 <;> simp [h]
      rw [hlen, List.countP_cons, List.map_cons, List.sum_cons]
      by_cases h : e.toppings.length = 0 <;> simp [h] <;> omega
  have h := haux es []
  simpa [sumCounts] using h

theorem mem_lookup_of_nodup : ∀ (m : List (String × Nat)) (k : String) (c : Nat),
    (m.map Prod.fst).Nodup → (k, c) ∈ m → lookupCount m k = c
  | [], _, _, _, h => absurd h (List.not_mem_nil _)
  | p :: rest, k, c, hnd, hmem => by
    rcases List.nodup_cons.mp hnd with ⟨hp1, hrest⟩
    rcases List.mem_cons.mp hmem with heq | htail
    · rw [← heq, lookupCount_cons]
      simp
    · have hk : k ∈ rest.map Prod.fst :=
        List.mem_map_of_mem Prod.fst htail
      have hne : p.1 ≠ k := fun h => hp1 (h ▸ hk)
      rw [lookupCount_cons, if_neg hne]
      exact mem_lookup_of_nodup rest k c hrest htail

theorem lookup_mem_of_pos : ∀ (m : List (String × Nat)) (k : String),
    lookupCount m k ≠ 0 → (k, lookupCount m k) ∈ m
  | [], k, h => absurd rfl h
  | p :: rest, k, h => by
    by_cases hk : p.1 = k
    · rw [lookupCount_cons, if_pos hk] at h ⊢
      rw [← hk]
      exact List.mem_cons_self p rest
    · rw [lookupCount_cons, if_neg hk] at h ⊢
      exact List.mem_cons_of_mem p (lookup_mem_of_pos rest k h)

/-! ## Claim C7 -/

/-- C7, counterexample.  An entry listing the same topping twice (as an
addEntry call with a duplicated topping id produces) is counted once per
occurrence, not once per entry: the single entry yields a count of 2 for a
topping contained in exactly 1 entry. -/
theorem claim7_counterexample :
    Sb.toppingFrequency [demoDupEntry] = [("🧀 チーズ", 2)] ∧
    ([demoDupEntry].filter (fun e => decide (demoTopping ∈ e.toppings))).length = 1 ∧
    (2 : Nat) ≠ 1 := by
  refine ⟨rfl, rfl, by decide⟩

/-- C7, amended.  Unconditionally, the counts of toppingFrequency sum to
the number of (entry, topping) pairs plus the number of zero-topping
entries, and the result is sorted by count descending.  For entry sets in
which no entry lists the same display key twice, it additionally maps each
key (topping keys and the sentinel bucket for zero-topping entries alike)
to the number of entries contributing that key; on an entry with
duplicated toppings it counts occurrences instead. -/
theorem claim7_amended (es : List HotdogEntryWithToppings) :
    ((Sb.toppingFrequency es).map (fun p => p.2)).sum =
      (es.map (fun e => e.toppings.length)).sum +
        es.countP (fun e => decide (e.toppings.length = 0)) ∧
    List.Sorted Sb.countDescLe (Sb.toppingFrequency es) ∧
    ((∀ e ∈ es, (entryKeys e).Nodup) →
      (∀ k c, (k, c) ∈ Sb.toppingFrequency es →
        c = es.countP (fun e => decide (k ∈ entryKeys e))) ∧
      (∀ k, (∃ e ∈ es, k ∈ entryKeys e) →
        (k, es.countP (fun e => decide (k ∈ entryKeys e))) ∈ Sb.toppingFrequency es)) := by
  have hperm : List.Perm (Sb.toppingFrequency es) (Sb.freqMap es) :=
    List.perm_insertionSort Sb.countDescLe (Sb.freqMap es)
  refine ⟨?_, ?_, ?_⟩
  · have hmapperm : List.Perm ((Sb.toppingFrequency es).map (fun p => p.2))
        ((Sb.freqMap es).map (fun p => p.2)) := hperm.map _
    rw [hmapperm.sum_eq]
    exact freqMap_sumCounts es
  · exact List.sorted_insertionSort Sb.countDescLe (Sb.freqMap es)
  · intro hnd
    constructor
    · intro k c hmem
      have hmem' : (k, c) ∈ Sb.freqMap es := hperm.mem_iff.mp hmem
      have := mem_lookup_of_nodup (Sb.freqMap es) k c (freqMap_fst_nodup es) hmem'
      rw [← this, freqMap_lookup es k hnd]
    · intro k hex
      rcases hex with ⟨e, he, hke⟩
      have hpos : es.countP (fun e => decide (k ∈ entryKeys e)) ≠ 0 := by
        have : 0 < es.countP (fun e => decide (k ∈ entryKeys e)) := by
          apply List.countP_pos.mpr
          exact ⟨e, he, by simpa using hke⟩
        omega
      have hl := freqMap_lookup es k hnd
      have := lookup_mem_of_pos (Sb.freqMap es) k (by rw [hl]; exact hpos)
      rw [hl] at this
      exact hperm.mem_iff.mpr this

/-- C7, witness.  The amended statement applied to a concrete two-entry
set (one topping entry, one zero-topping entry): the sentinel bucket holds
exactly the one zero-topping entry. -/
theorem claim7_witness :
    (∀ e ∈ [demoEntryC, demoEntry1], (entryKeys e).Nodup) ∧
    (Sb.sentinelKey, 1) ∈ Sb.toppingFrequency [demoEntryC, demoEntry1] := by
  constructor
  · decide
  · have h := ((claim7_amended [demoEntryC, demoEntry1]).2.2 (by decide)).2
      Sb.sentinelKey ⟨demoEntry1, by decide, by decide⟩
    have hc : [demoEntryC, demoEntry1].countP
        (fun e => decide (Sb.sentinelKey ∈ entryKeys e)) = 1 := by decide
    rw [hc] at h
    exact h

/-! ## Claim C8 -/

/-- C8, counterexample.  The Supabase-variant display view has no id
tie-break: two pending entries sharing one timestamp string (so any time
parse gives equal times) come out in fetched order, and both input orders
occur for the same entry set, so the display order of equal-timestamp
entries is not decided by their ids. -/
theorem claim8_counterexample :
    Sb.sortedEntries constTime [demoEntry9, demoEntry1] = [demoEntry9, demoEntry1] ∧
    Sb.sortedEntries constTime [demoEntry1, demoEntry9] = [demoEntry1, demoEntry9] ∧
    demoEntry9.id = 9 ∧ demoEntry1.id = 1 ∧
    demoEntry9.created_at = demoEntry1.created_at ∧
    ([demoEntry9, demoEntry1] : List HotdogEntryWithToppings) ≠ [demoEntry1, demoEntry9] := by
  refine ⟨by decide, by decide, rfl, rfl, rfl, by decide⟩

/-- C8, amended.  The simple-variant display view does sort by createdAt
ascending with the id as tie-break (and is a permutation of the entries).
The Supabase-variant view is sorted pending-first then by parsed time,
permutes the fetched entries, and is stable: any fetched-order pair
related by the display comparator — in particular a pair of
equal-timestamp, equal-flag entries — keeps its fetched relative order,
so ties are ordered by fetched position, not by entry ids.  The
Broadcast-variant view permutes the fetched entries as the block of
completed entries followed by the block of pending ones, each block
time-sorted, and a same-flag time-ordered pair likewise keeps its fetched
relative order. -/
theorem claim8_amended :
    (∀ s : Simple.StoreState,
      List.Sorted Simple.displayLe (Simple.sortedEntries s) ∧
      List.Perm (Simple.sortedEntries s) s.entries) ∧
    (∀ (timeOf : String → Int) (es : List HotdogEntryWithToppings),
      List.Sorted (Sb.displayLe timeOf) (Sb.sortedEntries timeOf es) ∧
      List.Perm (Sb.sortedEntries timeOf es) es ∧
      (∀ a b, Sb.displayLe timeOf a b → List.Sublist [a, b] es →
        List.Sublist [a, b] (Sb.sortedEntries timeOf es))) ∧
    (∀ (timeOf : String → Int) (es : List HotdogEntryWithToppings),
      List.Perm (Bc.sortedEntries timeOf es) es ∧
      (∃ cs ps, Bc.sortedEntries timeOf es = cs ++ ps ∧
        List.Perm cs (es.filter (fun e => e.completed)) ∧
        List.Perm ps (es.filter (fun e => !e.completed)) ∧
        (∀ e ∈ cs, e.completed = true) ∧
        (∀ e ∈ ps, e.completed = false) ∧
        List.Sorted (fun a b => timeOf a.created_at ≤ timeOf b.created_at) cs ∧
        List.Sorted (fun a b => timeOf a.created_at ≤ timeOf b.created_at) ps) ∧
      (∀ a b, a.completed = b.completed →
        timeOf a.created_at ≤ timeOf b.created_at → List.Sublist [a, b] es →
        List.Sublist [a, b] (Bc.sortedEntries timeOf es))) := by
  refine ⟨?_, ?_, ?_⟩
  · intro s
    exact ⟨List.sorted_insertionSort Simple.displayLe s.entries,
      List.perm_insertionSort Simple.displayLe s.entries⟩
  · intro timeOf es
    refine ⟨List.sorted_insertionSort (Sb.displayLe timeOf) es,
      List.perm_insertionSort (Sb.displayLe timeOf) es, ?_⟩
    intro a b hab hsub
    exact List.pair_sublist_insertionSort hab hsub
  · intro timeOf es
    haveI htot : IsTotal HotdogEntryWithToppings
        (fun a b => timeOf a.created_at ≤ timeOf b.created_at) :=
      ⟨fun a b => le_total (timeOf a.created_at) (timeOf b.created_at)⟩
    haveI htr : IsTrans HotdogEntryWithToppings
        (fun a b => timeOf a.created_at ≤ timeOf b.created_at) :=
      ⟨fun _ _ _ hab hbc => le_trans hab hbc⟩
    have h1 := List.perm_insertionSort
      (fun a b : HotdogEntryWithToppings => timeOf a.created_at ≤ timeOf b.created_at)
      (es.filter (fun e => e.completed))
    have h2 := List.perm_insertionSort
      (fun a b : HotdogEntryWithToppings => timeOf a.created_at ≤ timeOf b.created_at)
      (es.filter (fun e => !e.completed))
    refine ⟨(h1.append h2).trans (List.filter_append_perm (fun e => e.completed) es),
      ⟨List.insertionSort (fun a b => timeOf a.created_at ≤ timeOf b.created_at)
          (es.filter (fun e => e.completed)),
        List.insertionSort (fun a b => timeOf a.created_at ≤ timeOf b.created_at)
          (es.filter (fun e => !e.completed)),
        rfl, h1, h2, ?_, ?_, List.sorted_insertionSort _ _,
        List.sorted_insertionSort _ _⟩, ?_⟩
    · intro e he
      have := h1.mem_iff.mp he
      simpa using (List.mem_filter.mp this).2
    · intro e he
      have := h2.mem_iff.mp he
      simpa using (List.mem_filter.mp this).2
    · intro a b hflag htime hsub
      unfold Bc.sortedEntries
      cases hac : a.completed with
      | true =>
        have hbc : b.completed = true := hflag ▸ hac
        have hpair : List.Sublist [a, b] (es.filter (fun e => e.completed)) := by
          have hf := hsub.filter (fun e => e.completed)
          rwa [show ([a, b].filter (fun e => e.completed)) = [a, b] by
            simp [List.filter, hac, hbc]] at hf
        exact (@List.pair_sublist_insertionSort HotdogEntryWithToppings
          (fun x y => timeOf x.created_at ≤ timeOf y.created_at) _ a b _
          htime hpair).trans (List.sublist_append_left _ _)
      | false =>
        have hbc : b.completed = false := hflag ▸ hac
        have hpair : List.Sublist [a, b] (es.filter (fun e => !e.completed)) := by
          have hf := hsub.filter (fun e => !e.completed)
          rwa [show ([a, b].filter (fun e => !e.completed)) = [a, b] by
            simp [List.filter, hac, hbc]] at hf
        exact (@List.pair_sublist_insertionSort HotdogEntryWithToppings
          (fun x y => timeOf x.created_at ≤ timeOf y.created_at) _ a b _
          htime hpair).trans (List.sublist_append_right _ _)

/-! ## Claim C9 helper lemmas -/

theorem foldl_max_spec (l : List Int) (a : Int) :
    (∀ x ∈ l, x ≤ l.foldl max a) ∧ a ≤ l.foldl max a ∧
    (l.foldl max a = a ∨ l.foldl max a ∈ l) := by
  induction l generalizing a with
  | nil => simp
  | cons x xs ih =>
    rcases ih (max a x) with ⟨h1, h2, h3⟩
    rw [List.foldl_cons]
    refine ⟨?_, ?_, ?_⟩
    · intro y hy
      rcases List.mem_cons.mp hy with rfl | hmem
      · exact le_trans (le_max_right a y) h2
      · exact h1 y hmem
    · exact le_trans (le_max_left a x) h2
    · rcases h3 with he | hmem
      · rcases max_choice a x with hm | hm
        · rw [he, hm]
          exact Or.inl rfl
        · rw [he, hm]
          exact Or.inr (List.mem_cons_self x xs)
      · exact Or.inr (List.mem_cons_of_mem x hmem)

theorem maxDisplayOrder_spec (ts : List ToppingOption) (m : Int)
    (h : Sb.maxDisplayOrder ts = some m) :
    (∀ o ∈ ts, o.display_order ≤ m) ∧ ∃ o ∈ ts, o.display_order = m := by
  cases ts with
  | nil => cases h
  | cons o rest =>
    have hm : (rest.map (fun t => t.display_order)).foldl max o.display_order = m := by
      injection h
    rcases foldl_max_spec (rest.map (fun t => t.display_order)) o.display_order with
      ⟨h1, h2, h3⟩
    rw [hm] at h1 h2 h3
    refine ⟨?_, ?_⟩
    · intro x hx
      rcases List.mem_cons.mp hx with rfl | hmem
      · exact h2
      · exact h1 x.display_order (List.mem_map_of_mem _ hmem)
    · rcases h3 with he | hmem
      · exact ⟨o, List.mem_cons_self o rest, he.symm⟩
      · rcases List.mem_map.mp hmem with ⟨t, ht, hte⟩
        exact ⟨t, List.mem_cons_of_mem o ht, hte⟩

theorem jsMathMaxOrder_spec (t : ToppingOption) (rest : List ToppingOption) :
    (∀ o ∈ t :: rest, o.display_order ≤ Bc.jsMathMaxOrder (t :: rest)) ∧
    ∃ o ∈ t :: rest, o.display_order = Bc.jsMathMaxOrder (t :: rest) := by
  have hdef : Bc.jsMathMaxOrder (t :: rest) =
      (rest.map (fun x => x.display_order)).foldl max t.display_order := rfl
  rcases foldl_max_spec (rest.map (fun x => x.display_order)) t.display_order with
    ⟨h1, h2, h3⟩
  rw [hdef]
  refine ⟨?_, ?_⟩
  · intro x hx
    rcases List.mem_cons.mp hx with rfl | hmem
    · exact h2
    · exact h1 x.display_order (List.mem_map_of_mem _ hmem)
  · rcases h3 with he | hmem
    · exact ⟨t, List.mem_cons_self t rest, he.symm⟩
    · rcases List.mem_map.mp hmem with ⟨x, hx, hxe⟩
      exact ⟨x, List.mem_cons_of_mem t hx, hxe⟩

/-! ## Claim C9 -/

/-- C9, counterexample.  The Supabase-variant addCustomTopping makes no
existence check: adding a name already present in the catalog (with every
backend call succeeding) appends a duplicate row, so the catalog does not
stay unchanged. -/
theorem claim9_counterexample :
    ({ sbEmpty with db := { emptyDb with topping_options := [demoTopping] } } : Sb.SbState).db.topping_options.map
      (fun t => t.name) = ["チーズ"] ∧
    (Sb.addCustomTopping "チーズ" "🧀" "t2" "2024-01-02T00:00:00Z" true true true
        { sbEmpty with db := { emptyDb with topping_options := [demoTopping] } }).db.topping_options.map
      (fun t => t.name) = ["チーズ", "チーズ"] := by
  exact ⟨rfl, rfl⟩

/-- C9, amended.  Idempotence holds only for the simple-variant
ensureTopping (an already-present trimmed name leaves the state unchanged);
the Supabase and Broadcast addCustomTopping insert unconditionally,
duplicating an existing name.  The display-order part holds everywhere:
the Supabase variant assigns the catalog maximum plus one, or 1 on an
empty catalog; the Broadcast variant assigns the local-catalog maximum
plus one, or 0 on an empty catalog. -/
theorem claim9_amended :
    (∀ (s : Simple.StoreState) (name : String),
      name.trim ∈ s.toppingOptions → Simple.ensureTopping s name = s) ∧
    (∀ (n e ni cn : String) (i : Bool) (st : Sb.SbState),
      (st.db.topping_options = [] →
        (Sb.addCustomTopping n e ni cn true true i st).db.topping_options.map
            (fun t => t.display_order) = [1]) ∧
      (∀ m, Sb.maxDisplayOrder st.db.topping_options = some m →
        (Sb.addCustomTopping n e ni cn true true i st).db.topping_options.map
            (fun t => t.display_order) =
          st.db.topping_options.map (fun t => t.display_order) ++ [m + 1] ∧
        (∀ o ∈ st.db.topping_options, o.display_order ≤ m) ∧
        ∃ o ∈ st.db.topping_options, o.display_order = m)) ∧
    (∀ (n e ni now : String) (st : Bc.BcState),
      (st.toppingOptions = [] →
        (Bc.addCustomTopping n e ni now true st).toppingOptions.map
            (fun t => t.display_order) = [0]) ∧
      (st.toppingOptions ≠ [] →
        (Bc.addCustomTopping n e ni now true st).toppingOptions.map
            (fun t => t.display_order) =
          st.toppingOptions.map (fun t => t.display_order) ++
            [Bc.jsMathMaxOrder st.toppingOptions + 1] ∧
        (∀ o ∈ st.toppingOptions, o.display_order ≤ Bc.jsMathMaxOrder st.toppingOptions) ∧
        ∃ o ∈ st.toppingOptions, o.display_order = Bc.jsMathMaxOrder st.toppingOptions)) := by
  refine ⟨?_, ?_, ?_⟩
  · intro s name h
    unfold Simple.ensureTopping
    by_cases h0 : name.trim = ""
    · simp [h0]
    · simp [h0, h]
  · intro n e ni cn i st
    constructor
    · intro hempty
      unfold Sb.addCustomTopping
      rw [hempty]
      simp [Sb.maxDisplayOrder, Sb.initStore, fetchEntries_db]
      cases i <;> simp [hempty]
    · intro m hm
      unfold Sb.addCustomTopping
      rw [hm]
      refine ⟨?_, (maxDisplayOrder_spec st.db.topping_options m hm).1,
        (maxDisplayOrder_spec st.db.topping_options m hm).2⟩
      simp [Sb.initStore]
      cases i <;> simp
  · intro n e ni now st
    constructor
    · intro hempty
      unfold Bc.addCustomTopping
      rw [hempty]
      simp
    · intro hne
      unfold Bc.addCustomTopping
      cases hts : st.toppingOptions with
      | nil => exact absurd hts hne
      | cons t rest =>
        rw [← hts]
        have hpos : 0 < st.toppingOptions.length := by
          rw [hts]
          simp
        simp only [hpos, if_true, Bool.true_eq_false, if_false]
        refine ⟨by simp, ?_, ?_⟩
        · rw [hts]
          exact (jsMathMaxOrder_spec t rest).1
        · rw [hts]
          exact (jsMathMaxOrder_spec t rest).2

/-- C9, witness.  The amended statement applied at concrete inputs: an
already-present name left the simple catalog unchanged, and a concrete
Supabase insert got display order 2 = 1 + 1. -/
theorem claim9_witness :
    ("チーズ".trim ∈ demoSimpleState.toppingOptions) ∧
    Simple.ensureTopping demoSimpleState "チーズ" = demoSimpleState ∧
    Sb.maxDisplayOrder [demoTopping] = some 1 ∧
    (Sb.addCustomTopping "コーン" "🌽" "t2" "2024-01-02T00:00:00Z" true true true
        { sbEmpty with db := { emptyDb with topping_options := [demoTopping] } }).db.topping_options.map
      (fun t => t.display_order) = [1, 2] := by
  refine ⟨List.mem_singleton.mpr rfl, ?_, rfl, ?_⟩
  · exact claim9_amended.1 demoSimpleState "チーズ" (List.mem_singleton.mpr rfl)
  · have h := (claim9_amended.2.1 "コーン" "🌽" "t2" "2024-01-02T00:00:00Z" true
      { sbEmpty with db := { emptyDb with topping_options := [demoTopping] } }).2 1 rfl
    simpa using h.1

/-! ## Claim C10 helper lemmas -/

theorem bumpAt_length : ∀ (l : List Nat) (h : Nat),
    (Sb.bumpAt l h).length = l.length
  | [], _ => rfl
  | _ :: _, 0 => rfl
  | c :: rest, h + 1 => by
    simp [Sb.bumpAt, bumpAt_length rest h]

theorem bumpAt_getD : ∀ (l : List Nat) (j i : Nat),
    (Sb.bumpAt l j).getD i 0 = l.getD i 0 + (if i = j ∧ j < l.length then 1 else 0)
  | [], j, i => by simp [Sb.bumpAt]
  | c :: rest, 0, 0 => by simp [Sb.bumpAt]
  | c :: rest, 0, i + 1 => by simp [Sb.bumpAt]
  | c :: rest, j + 1, 0 => by simp [Sb.bumpAt]
  | c :: rest, j + 1, i + 1 => by
    simp only [Sb.bumpAt, List.getD_cons_succ, List.length_cons]
    rw [bumpAt_getD rest j i]
    by_cases h : i = j ∧ j < rest.length
    · rw [if_pos h, if_pos (by omega : i + 1 = j + 1 ∧ j + 1 < rest.length + 1)]
    · rw [if_neg h, if_neg (by omega : ¬(i + 1 = j + 1 ∧ j + 1 < rest.length + 1))]

theorem bumpAt_sum : ∀ (l : List Nat) (j : Nat), j < l.length →
    (Sb.bumpAt l j).sum = l.sum + 1
  | [], j, h => absurd h (by simp)
  | c :: rest, 0, _ => by
    simp [Sb.bumpAt, List.sum_cons]
    omega
  | c :: rest, j + 1, h => by
    have hj : j < rest.length := by simpa using h
    simp [Sb.bumpAt, List.sum_cons, bumpAt_sum rest j hj]
    omega

theorem hourly_foldl_length (hourOf : String → Nat) :
    ∀ (es : List HotdogEntryWithToppings) (sales : List Nat),
      (es.foldl (fun s e => Sb.bumpAt s (hourOf e.created_at)) sales).length =
        sales.length
  | [], _ => rfl
  | e :: es, sales => by
    rw [List.foldl_cons, hourly_foldl_length hourOf es _, bumpAt_length]

theorem hourly_foldl_getD (hourOf : String → Nat) :
    ∀ (es : List HotdogEntryWithToppings) (sales : List Nat) (i : Nat),
      (∀ e ∈ es, hourOf e.created_at < sales.length) →
      (es.foldl (fun s e => Sb.bumpAt s (hourOf e.created_at)) sales).getD i 0 =
        sales.getD i 0 + es.countP (fun e => decide (hourOf e.created_at = i))
  | [], _, _, _ => by simp
  | e :: es, sales, i, hv => by
    rw [List.foldl_cons]
    have hlen : (Sb.bumpAt sales (hourOf e.created_at)).length = sales.length :=
      bumpAt_length _ _
    rw [hourly_foldl_getD hourOf es _ i
      (fun x hx => by rw [hlen]; exact hv x (List.mem_cons_of_mem e hx))]
    rw [bumpAt_getD, List.countP_cons]
    have he := hv e (List.mem_cons_self e es)
    by_cases hh : hourOf e.created_at = i
    · rw [if_pos ⟨hh.symm, he⟩]
      simp [hh]
      omega
    · rw [if_neg (fun hc => hh hc.1.symm)]
      simp [hh]

theorem hourly_foldl_sum (hourOf : String → Nat) :
    ∀ (es : List HotdogEntryWithToppings) (sales : List Nat),
      (∀ e ∈ es, hourOf e.created_at < sales.length) →
      (es.foldl (fun s e => Sb.bumpAt s (hourOf e.created_at)) sales).sum =
        sales.sum + es.length
  | [], _, _ => by simp
  | e :: es, sales, hv => by
    rw [List.foldl_cons]
    have hlen : (Sb.bumpAt sales (hourOf e.created_at)).length = sales.length :=
      bumpAt_length _ _
    rw [hourly_foldl_sum hourOf es _
      (fun x hx => by rw [hlen]; exact hv x (List.mem_cons_of_mem e hx))]
    rw [bumpAt_sum sales _ (hv e (List.mem_cons_self e es))]
    simp
    omega

/-! ## Claim C10 -/

/-- C10, theorem.  For every entry set whose created_at timestamps the
local-time hour conversion maps below 24 (every valid timestamp),
hourlySales is a 24-slot histogram, slot h holds the number of entries
whose local hour is h (so each entry increments exactly one slot), and the
slots sum to totalHotdogs. -/
theorem claim10_theorem (hourOf : String → Nat) (st : Sb.SbState)
    (hv : ∀ e ∈ st.entries, hourOf e.created_at < 24) :
    (Sb.hourlySales hourOf st.entries).length = 24 ∧
    (∀ h, h < 24 →
      (Sb.hourlySales hourOf st.entries).getD h 0 =
        st.entries.countP (fun e => decide (hourOf e.created_at = h))) ∧
    (Sb.hourlySales hourOf st.entries).sum = Sb.totalHotdogs st := by
  have hv' : ∀ e ∈ st.entries, hourOf e.created_at < (List.replicate 24 0).length := by
    simpa using hv
  refine ⟨?_, ?_, ?_⟩
  · rw [Sb.hourlySales, hourly_foldl_length]
    simp
  · intro h hh
    rw [Sb.hourlySales, hourly_foldl_getD hourOf st.entries _ h hv']
    have hz : (List.replicate 24 0).getD h 0 = 0 := by
      simp only [List.getD_eq_getElem?_getD, List.getElem?_replicate]
      simp [hh]
    rw [hz]
    omega
  · rw [Sb.hourlySales, hourly_foldl_sum hourOf st.entries _ hv']
    simp [Sb.totalHotdogs]

/-- C10, witness.  The theorem applied at a concrete hour conversion and
a concrete two-entry state. -/
theorem claim10_witness :
    (∀ e ∈ demoSt10.entries, (fun _ : String => (9 : Nat)) e.created_at < 24) ∧
    (Sb.hourlySales (fun _ => 9) demoSt10.entries).sum = Sb.totalHotdogs demoSt10 := by
  exact ⟨by decide, (claim10_theorem (fun _ => 9) demoSt10 (by decide)).2.2⟩

end RecOrder
